import Mathlib

/-!
# Type-erased `Variant<Ts...>` (content/src/cpp_variant/variant1.cpp)

Shallow embedding of the container and of its two `visit` strategies.

* C++ types are an arbitrary type `Ty` with decidable equality.  `std::decay_t`
  belongs to the standard library and is taken as a parameter `decay : Ty → Ty`.
* Values live in one carrier `V`; a cell pairs the concrete type it was
  instantiated at with the value it stores.
* What making a cell from an argument does depends on the argument type, which is
  declared outside the file: a parameter `kind : Ty → ArgKind` says whether the type is
  a copy-constructible value type (the cell is made and keeps the value), is not
  copy-constructible (the instantiation does not compile) or is a `Variant` that the
  forwarding constructor takes again (the construction does not return).  Cells only
  exist for value types, and copying a stored value keeps it.
* `std::unique_ptr` / `std::make_unique` are modelled by an explicit heap of cells:
  `make_unique` allocates a fresh address, destroying a `unique_ptr` frees its address.
* A visitor is a function of the selected overload (a type), the stored value
  (passed by reference, so it returns the value it leaves behind) and its own
  state.  A visitor that re-enters the variant it is visiting is outside the model.
* Every function takes the objects it works on as distinct arguments.  The copy, move
  and forwarding constructors (and assignments) are separate functions: which of them
  the compiler picks for an argument expression is not computed, except that `kind`
  marks the arguments for which the forwarding constructor is picked again.  A call
  whose two operands are the same object (self assignment) is outside the model.
-/

namespace CppVariant

/-! ## Outcomes -/

/-- Result of running a piece of the program from a state of type `W`. -/
inductive Outcome (W α : Type) where
  /-- Normal return in state `w` with result `r`. -/
  | ok (w : W) (r : α)
  /-- The statement `assert(impl_)` failed; `w` is the state reached at the abort. -/
  | assertFail (w : W)
  /-- Undefined behaviour: null or dangling dereference, invalid `static_cast`. -/
  | undefined
  /-- The instantiation does not compile. -/
  | illFormed
  /-- The call does not return: it calls itself without end (until the stack is
  exhausted). -/
  | diverges
deriving DecidableEq

/-- Sequencing: run `k` from the state and result of an outcome that returned. -/
def Outcome.bind {W α β : Type} (o : Outcome W α) (k : W → α → Outcome W β) : Outcome W β :=
  match o with
  | .ok w a => k w a
  | .assertFail w => .assertFail w
  | .undefined => .undefined
  | .illFormed => .illFormed
  | .diverges => .diverges

/-! ## Erased cells and the heap -/

/-- The class `detail::VariantImpl<T>` seen through a `VariantBase*`: the template
argument `T` is the dynamic type of the cell, `value_` its data member. -/
structure VariantImpl (Ty V : Type) where
  T : Ty
  value_ : V
deriving DecidableEq

/-- Free store holding the cells; address `a` is live iff `cells[a] = some (some c)`.
Addresses are never reused. -/
structure Heap (Ty V : Type) where
  cells : List (Option (VariantImpl Ty V))
deriving DecidableEq

variable {Ty V S R : Type}

/-- Dereference: the cell at address `a`, `none` when `a` is not live. -/
def Heap.get (h : Heap Ty V) (a : Nat) : Option (VariantImpl Ty V) :=
  (h.cells[a]?).join

/-- The call `std::make_unique<VariantImpl<T>>(x)`: a fresh cell, and its address. -/
def Heap.make_unique (h : Heap Ty V) (c : VariantImpl Ty V) : Heap Ty V × Nat :=
  (⟨h.cells ++ [some c]⟩, h.cells.length)

/-- The expression `delete p` for a non-null `p`. -/
def Heap.delete (h : Heap Ty V) (a : Nat) : Heap Ty V :=
  ⟨h.cells.set a none⟩

/-- Release of the pointer a `unique_ptr` owned before it is overwritten. -/
def Heap.reset (h : Heap Ty V) (p : Option Nat) : Heap Ty V :=
  match p with
  | none => h
  | some a => h.delete a

/-- Write through a reference to `value_` of the live cell at `a`. -/
def Heap.store (h : Heap Ty V) (a : Nat) (c : VariantImpl Ty V) : Heap Ty V :=
  ⟨h.cells.set a (some c)⟩

/-- The virtual `VariantImpl<T>::clone()`: `std::make_unique<VariantImpl>(value_)`. -/
def VariantImpl.clone (c : VariantImpl Ty V) (h : Heap Ty V) : Heap Ty V × Nat :=
  h.make_unique ⟨c.T, c.value_⟩

/-- How making a cell from an argument of static type `T` behaves.  This is decided by
the declaration of the argument type, which is not part of the file, so the model takes
the classification as a parameter `kind : Ty → ArgKind`. -/
inductive ArgKind where
  /-- The decayed type is copy-constructible and `value_` is copy- or move-constructed
  from the argument, keeping its value. -/
  | value
  /-- The decayed type is not copy-constructible: `VariantImpl<std::decay_t<T>>` has
  the virtual `clone()`, which copy-constructs `value_`, so the instantiation does
  not compile. -/
  | notCopyable
  /-- The argument is a `Variant` for which initialising `value_` selects the
  constructor `Variant(T&&)` again (a non-const lvalue or a const rvalue of a `Variant`
  type): `VariantImpl(U&& x) : value_(std::forward<U>(x))` calls `make_variant_impl`
  again, without end. -/
  | forwarded
deriving DecidableEq

/-- The function `detail::make_variant_impl(T&& x)`, called with an argument of static
type `T` and value `x`: `std::make_unique<VariantImpl<std::decay_t<T>>>(std::forward<T>(x))`,
which instantiates `VariantImpl<std::decay_t<T>>` and runs its constructor
`VariantImpl(U&& x) : value_(std::forward<U>(x))`. -/
def make_variant_impl (decay : Ty → Ty) (kind : Ty → ArgKind) (h : Heap Ty V) (T : Ty)
    (x : V) : Outcome (Heap Ty V) Nat :=
  match kind T with
  | .value => .ok (h.make_unique ⟨decay T, x⟩).1 (h.make_unique ⟨decay T, x⟩).2
  | .notCopyable => .illFormed
  | .forwarded => .diverges

/-! ## The container -/

/-- The class `Variant<Ts...>`: its only data member is `impl_`
(`none` is the null pointer). -/
structure Variant (Ts : List Ty) where
  impl_ : Option Nat
deriving DecidableEq

/-- The cell a variant owns in heap `h`, `none` when it is empty (or dangling). -/
def Variant.cell {Ts : List Ty} (self : Variant Ts) (h : Heap Ty V) : Option (VariantImpl Ty V) :=
  self.impl_.bind h.get

/-- A variant is valid in `h` when `impl_` is null or points to a live cell. -/
def Variant.valid {Ts : List Ty} (self : Variant Ts) (h : Heap Ty V) : Bool :=
  match self.impl_ with
  | none => true
  | some a => (h.get a).isSome

/-- Constructor `Variant() = default`. -/
def Variant.ctor_default (Ts : List Ty) : Variant Ts := ⟨none⟩

/-- Constructor `Variant(Variant&&) = default`: returns the new object and the
moved-from source. -/
def Variant.ctor_move {Ts : List Ty} (other : Variant Ts) : Variant Ts × Variant Ts :=
  (⟨other.impl_⟩, ⟨none⟩)

/-- Constructor `Variant(Variant const& other) : impl_(other.impl_->clone())`. -/
def Variant.ctor_copy {Ts : List Ty} (h : Heap Ty V) (other : Variant Ts) :
    Outcome (Heap Ty V) (Variant Ts) :=
  match other.impl_ with
  | none => .undefined
  | some a =>
    match h.get a with
    | none => .undefined
    | some c => .ok (c.clone h).1 ⟨some (c.clone h).2⟩

/-- Constructor `Variant(T&& x) : impl_(detail::make_variant_impl(x))`. -/
def Variant.ctor_value (decay : Ty → Ty) (kind : Ty → ArgKind) (Ts : List Ty)
    (h : Heap Ty V) (T : Ty) (x : V) : Outcome (Heap Ty V) (Variant Ts) :=
  (make_variant_impl decay kind h T x).bind fun h1 p => .ok h1 ⟨some p⟩

/-- Operator `Variant& operator=(Variant&&) = default`: returns the heap, the
assigned object and the moved-from source. -/
def Variant.assign_move {Ts : List Ty} (h : Heap Ty V) (self other : Variant Ts) :
    Heap Ty V × Variant Ts × Variant Ts :=
  (h.reset self.impl_, ⟨other.impl_⟩, ⟨none⟩)

/-- Operator `operator=(Variant const& other)`:
`impl_ = other.impl_ ? other.impl_->clone() : nullptr`. -/
def Variant.assign_copy {Ts : List Ty} (h : Heap Ty V) (self other : Variant Ts) :
    Outcome (Heap Ty V) (Variant Ts) :=
  match other.impl_ with
  | none => .ok (h.reset self.impl_) ⟨none⟩
  | some a =>
    match h.get a with
    | none => .undefined
    | some c => .ok ((c.clone h).1.reset self.impl_) ⟨some (c.clone h).2⟩

/-- Operator `operator=(T&& x)`: `impl_ = detail::make_variant_impl(x)`; the cell is made
first, then the assignment to `impl_` releases the cell held before. -/
def Variant.assign_value (decay : Ty → Ty) (kind : Ty → ArgKind) {Ts : List Ty}
    (h : Heap Ty V) (self : Variant Ts) (T : Ty) (x : V) :
    Outcome (Heap Ty V) (Variant Ts) :=
  (make_variant_impl decay kind h T x).bind fun h1 p => .ok (h1.reset self.impl_) ⟨some p⟩

/-! ## Visitors and the two dispatch strategies -/

/-- What one visitor invocation leaves behind. -/
structure Call (V S R : Type) where
  ret : R
  value : V
  st : S

/-- A visitor: `f t v s` runs the overload selected for an lvalue of type `t`
on the stored value `v`, in visitor state `s`. -/
abbrev Visitor (Ty V S R : Type) := Ty → V → S → Call V S R

/-- Observable steps of a dispatch (ghost trace). -/
inductive Event (Ty V : Type) where
  /-- Evaluation of `dynamic_cast<VariantImpl<t>*>(impl_.get())`, and whether it is non-null. -/
  | dyncast (t : Ty) (ok : Bool)
  /-- Evaluation of `static_cast<VariantImpl<t>*>(impl_.get())`. -/
  | scast (t : Ty)
  /-- Invocation of the visitor overload for `t` on the value `v`. -/
  | call (t : Ty) (v : V)
deriving DecidableEq

/-- State a dispatch runs in. -/
structure World (Ty V S : Type) where
  heap : Heap Ty V
  st : S
  trace : List (Event Ty V)
deriving DecidableEq

/-- Append ghost events to the trace. -/
def World.log (w : World Ty V S) (es : List (Event Ty V)) : World Ty V S :=
  ⟨w.heap, w.st, w.trace ++ es⟩

/-- The invocations recorded in a trace, in order. -/
def calls : List (Event Ty V) → List (Ty × V)
  | [] => []
  | .call t v :: es => (t, v) :: calls es
  | _ :: es => calls es

/-- The type tests recorded in a trace, in order. -/
def tests : List (Event Ty V) → List (Ty × Bool)
  | [] => []
  | .dyncast t b :: es => (t, b) :: tests es
  | _ :: es => tests es

/-- The statement `f(p->value_)` for the live cell `c` at `p`, through the overload for `t`. -/
def invoke (f : Visitor Ty V S R) (p : Nat) (t : Ty) (c : VariantImpl Ty V)
    (w : World Ty V S) : World Ty V S :=
  ⟨w.heap.store p ⟨c.T, (f t c.value_ w.st).value⟩, (f t c.value_ w.st).st,
    w.trace ++ [.call t c.value_]⟩

section Dispatch
variable [DecidableEq Ty]

/-- The lambda `visit_impl` of `variant1_visit1`, applied to `static_cast<t*>(nullptr)`:
`Impl = VariantImpl<std::decay_t<decltype(*t)>>`,
`if (auto* p = dynamic_cast<Impl*>(impl_.get())) f(p->value_)`. -/
def visit_impl1 (decay : Ty → Ty) (f : Visitor Ty V S R) (p : Nat) (t : Ty)
    (w : World Ty V S) : Option (World Ty V S) :=
  match w.heap.get p with
  | none => none
  | some c =>
    if c.T = decay t then
      some (invoke f p (decay t) c (w.log [.dyncast (decay t) true]))
    else
      some (w.log [.dyncast (decay t) false])

/-- The fold `(visit_impl(static_cast<Ts*>(nullptr)), ...)` over the comma operator. -/
def visit1_fold (decay : Ty → Ty) (f : Visitor Ty V S R) (p : Nat) :
    List Ty → World Ty V S → Option (World Ty V S)
  | [], w => some w
  | t :: ts, w =>
    match visit_impl1 decay f p t w with
    | none => none
    | some w1 => visit1_fold decay f p ts w1

/-- Method `Variant<Ts...>::visit` of `variant1_visit1` (VIMPL unset or 1), with
`assert` enabled (NDEBUG not defined). -/
def Variant.visit1 (decay : Ty → Ty) {Ts : List Ty} (self : Variant Ts)
    (f : Visitor Ty V S R) (w : World Ty V S) : Outcome (World Ty V S) Unit :=
  match self.impl_ with
  | none => .assertFail w
  | some p =>
    match visit1_fold decay f p Ts w with
    | none => .undefined
    | some w1 => .ok w1 ()

/-- The lambda `visit_impl` of `variant1_visit2`, applied to `t, ts...`. -/
def visit_impl2 (decay : Ty → Ty) (f : Visitor Ty V S R) (p : Nat) :
    Ty → List Ty → World Ty V S → Outcome (World Ty V S) R
  | t, [], w =>
    match w.heap.get p with
    | none => .undefined
    | some c =>
      if c.T = decay t then
        .ok (invoke f p (decay t) c (w.log [.scast (decay t)]))
          (f (decay t) c.value_ w.st).ret
      else .undefined
  | t, t1 :: ts, w =>
    match w.heap.get p with
    | none => .undefined
    | some c =>
      if c.T = decay t then
        .ok (invoke f p (decay t) c (w.log [.dyncast (decay t) true, .scast (decay t)]))
          (f (decay t) c.value_ w.st).ret
      else
        visit_impl2 decay f p t1 ts (w.log [.dyncast (decay t) false])

/-- Method `Variant<Ts...>::visit` of `variant1_visit2` (VIMPL other than 1), with
`assert` enabled (NDEBUG not defined).  The lambda needs a first pointer argument, so
the body does not compile for an empty `Ts`. -/
def Variant.visit2 (decay : Ty → Ty) {Ts : List Ty} (self : Variant Ts)
    (f : Visitor Ty V S R) (w : World Ty V S) : Outcome (World Ty V S) R :=
  match Ts with
  | [] => .illFormed
  | t :: ts =>
    match self.impl_ with
    | none => .assertFail w
    | some p => visit_impl2 decay f p t ts w

end Dispatch

/-- Events of a scan over `ts` none of whose entries matches the cell. -/
def misses {Ty V : Type} (decay : Ty → Ty) (ts : List Ty) : List (Event Ty V) :=
  ts.map (fun t => Event.dyncast (decay t) false)

/-- The invocations made by a dispatch that returned, `none` when it did not return. -/
def Outcome.invocations {Ty V S α : Type} (o : Outcome (World Ty V S) α) :
    Option (List (Ty × V)) :=
  match o with
  | .ok w _ => some (calls w.trace)
  | _ => none

/-- The type tests made by a dispatch that returned, `none` when it did not return. -/
def Outcome.typeTests {Ty V S α : Type} (o : Outcome (World Ty V S) α) :
    Option (List (Ty × Bool)) :=
  match o with
  | .ok w _ => some (tests w.trace)
  | _ => none

/-! ## The demonstration program and a concrete universe of types -/

/-- C++ types that occur in the demonstration program and in the examples:
`int`, `int const`, `long`, `char const*`, `char const[n]`, `std::unique_ptr<int>`,
`Variant<int, char const*>` and `Variant<int, char const*>&` (the type deduced for a
non-const lvalue of the variant). -/
inductive CTy where
  | int
  | constInt
  | long
  | charConstPtr
  | charConstArr (n : Nat)
  | uniquePtrInt
  | variant
  | variantLvalue
deriving DecidableEq

/-- The trait `std::decay_t` on `CTy`: a top-level `const` and a reference are dropped
and an array becomes a pointer to its element type. -/
def cdecay : CTy → CTy
  | .constInt => .int
  | .charConstArr _ => .charConstPtr
  | .variantLvalue => .variant
  | t => t

/-- The kind of the types of `CTy` as arguments: `std::unique_ptr<int>` is not
copy-constructible; a `Variant` argument that reaches `Variant(T&&)` (a non-const
lvalue or a const rvalue; the copy and move constructors take the others) is forwarded
again; the others are copy-constructible value types. -/
def ckind : CTy → ArgKind
  | .uniquePtrInt => .notCopyable
  | .variant => .forwarded
  | .variantLvalue => .forwarded
  | _ => .value

/-- Values of the types of `CTy`: integers, character strings named by a pointer, an
owning pointer to an integer, and a variant object given by its `impl_`. -/
inductive CVal where
  | num (n : Int)
  | str (s : String)
  | owned (n : Int)
  | var (impl_ : Option Nat)
deriving DecidableEq

/-- The permitted list of `MyVariant = Variant<int, char const*>`. -/
def MyTs : List CTy := [.int, .charConstPtr]

/-- The struct `Visit` of `main`.  The state is what was written to `std::cout`, one
entry per `operator()` call: the label and the printed argument.  Both overloads take
their argument by value, so the stored value is left as it is.  `Visit` has overloads
for `int` and `char const*` only; the other cases are never selected for `MyTs`. -/
def Visit : Visitor CTy CVal (List (String × CVal)) Unit :=
  fun t v out =>
    match t with
    | .int => ⟨(), v, out ++ [("int: ", v)]⟩
    | .charConstPtr => ⟨(), v, out ++ [("char*: ", v)]⟩
    | _ => ⟨(), v, out⟩

/-- A visitor taking its argument by mutable reference and incrementing an integer. -/
def Bump : Visitor CTy CVal Unit Unit :=
  fun _ v s =>
    match v with
    | .num n => ⟨(), .num (n + 1), s⟩
    | u => ⟨(), u, s⟩

/-- The function `main` of `variant1_test`; `visit` is the strategy the build selected.
The temporary `MyVariant{3}` is destroyed after the move assignment. -/
def main
    (visit : Variant MyTs → Visitor CTy CVal (List (String × CVal)) Unit →
      World CTy CVal (List (String × CVal)) →
      Outcome (World CTy CVal (List (String × CVal))) Unit) :
    Outcome (World CTy CVal (List (String × CVal))) Unit :=
  let v0 : Variant MyTs := Variant.ctor_default MyTs
  match Variant.ctor_value cdecay ckind MyTs (⟨[]⟩ : Heap CTy CVal) CTy.int (CVal.num 3) with
  | .ok h1 tmp =>
    let r2 := Variant.assign_move h1 v0 tmp
    let h3 := r2.1.reset r2.2.2.impl_
    match visit r2.2.1 Visit ⟨h3, [], []⟩ with
    | .ok w _ =>
      match Variant.assign_value cdecay ckind w.heap r2.2.1 (CTy.charConstArr 5)
          (CVal.str "plop") with
      | .ok h4 v4 => visit v4 Visit ⟨h4, w.st, w.trace⟩
      | .illFormed => .illFormed
      | .diverges => .diverges
      | _ => .undefined
    | o => o
  | .illFormed => .illFormed
  | .diverges => .diverges
  | _ => .undefined

/-! ## Specification-side descriptions of a dispatch -/

/-- Events of the position at which the recursive dispatch stops, for a cell of type `T`:
the unchecked `static_cast` alone when no type remains after it (the base case of the
recursion), and otherwise the successful `dynamic_cast` followed by the `static_cast`. -/
def castEvents {Ty V : Type} (T : Ty) : List Ty → List (Event Ty V)
  | [] => [.scast T]
  | _ :: _ => [.dyncast T true, .scast T]

/-- Outcome of `k` successive invocations of the overload for `T` on a stored value:
the invocations made, the value left in the cell and the visitor state. -/
def repeatCall {Ty V S R : Type} (f : Visitor Ty V S R) (T : Ty) :
    Nat → V → S → List (Ty × V) × V × S
  | 0, v, s => ([], v, s)
  | k + 1, v, s =>
    ((T, v) :: (repeatCall f T k (f T v s).value (f T v s).st).1,
      (repeatCall f T k (f T v s).value (f T v s).st).2)

/-- An event without the value it carries. -/
def Event.shape {Ty V : Type} : Event Ty V → Event Ty Unit
  | .dyncast t b => .dyncast t b
  | .scast t => .scast t
  | .call t _ => .call t ()

/-- Specification of the linear scan, after the words of the design: one type test per
list position, in list order, followed by an invocation exactly at the positions whose
decayed type is the type `T` of the cell. -/
def scanShape {Ty : Type} [DecidableEq Ty] (decay : Ty → Ty) (T : Ty) :
    List Ty → List (Event Ty Unit)
  | [] => []
  | t :: ts =>
    (if T = decay t then [.dyncast (decay t) true, .call (decay t) ()]
      else [.dyncast (decay t) false]) ++ scanShape decay T ts

/-! ## Heap lemmas -/

section HeapLemmas
variable {Ty V : Type}

theorem Heap.get_isSome_lt {h : Heap Ty V} {a : Nat} {c : VariantImpl Ty V}
    (hc : h.get a = some c) : a < h.cells.length := by
  unfold Heap.get at hc
  by_contra hlt
  have : h.cells[a]? = none := List.getElem?_eq_none (by omega)
  simp [this] at hc

theorem Heap.get_make_unique_self (h : Heap Ty V) (c : VariantImpl Ty V) :
    (h.make_unique c).1.get (h.make_unique c).2 = some c := by
  simp [Heap.get, Heap.make_unique]

theorem Heap.get_make_unique_ne (h : Heap Ty V) (c : VariantImpl Ty V) {a : Nat}
    (ha : a ≠ h.cells.length) : (h.make_unique c).1.get a = h.get a := by
  unfold Heap.get Heap.make_unique
  rcases Nat.lt_or_gt_of_ne ha with hlt | hgt
  · simp [List.getElem?_append_left hlt]
  · have h1 : (h.cells ++ [some c])[a]? = none :=
      List.getElem?_eq_none (by simp; omega)
    have h2 : h.cells[a]? = none := List.getElem?_eq_none (by omega)
    simp [h1, h2]

theorem Heap.get_delete (h : Heap Ty V) (a b : Nat) :
    (h.delete a).get b = if b = a then none else h.get b := by
  unfold Heap.get Heap.delete
  by_cases hba : b = a
  · subst hba
    by_cases hlt : b < h.cells.length
    · simp [hlt]
    · have : (h.cells.set b none)[b]? = none := List.getElem?_eq_none (by simp; omega)
      simp [this]
  · have hab : a ≠ b := fun e => hba e.symm
    simp [hba, List.getElem?_set_ne hab]

theorem Heap.get_store (h : Heap Ty V) (a b : Nat) (c : VariantImpl Ty V)
    (ha : a < h.cells.length) :
    (h.store a c).get b = if b = a then some c else h.get b := by
  unfold Heap.get Heap.store
  by_cases hba : b = a
  · subst hba
    simp [ha]
  · have hab : a ≠ b := fun e => hba e.symm
    simp [hba, List.getElem?_set_ne hab]

end HeapLemmas

/-! ## Trace lemmas -/

section TraceLemmas
variable {Ty V S : Type}

theorem calls_append (xs ys : List (Event Ty V)) : calls (xs ++ ys) = calls xs ++ calls ys := by
  induction xs with
  | nil => rfl
  | cons e es ih => cases e <;> simp [calls, ih]

theorem tests_append (xs ys : List (Event Ty V)) : tests (xs ++ ys) = tests xs ++ tests ys := by
  induction xs with
  | nil => rfl
  | cons e es ih => cases e <;> simp [tests, ih]

theorem World.log_log (w : World Ty V S) (xs ys : List (Event Ty V)) :
    (w.log xs).log ys = w.log (xs ++ ys) := by
  simp [World.log]

theorem World.log_nil (w : World Ty V S) : w.log [] = w := by
  simp [World.log]

end TraceLemmas

/-! ## Dispatch lemmas -/

section DispatchLemmas
variable {Ty V S R : Type}

theorem calls_misses (decay : Ty → Ty) (ts : List Ty) :
    calls (misses decay ts : List (Event Ty V)) = [] := by
  induction ts with
  | nil => rfl
  | cons t ts ih => simpa [misses, calls] using ih

theorem invoke_heap_get (f : Visitor Ty V S R) (p : Nat) (t : Ty) (c : VariantImpl Ty V)
    (w : World Ty V S) (hc : w.heap.get p = some c) (b : Nat) :
    (invoke f p t c w).heap.get b
      = if b = p then some ⟨c.T, (f t c.value_ w.st).value⟩ else w.heap.get b := by
  simp only [invoke]
  exact Heap.get_store _ _ _ _ (Heap.get_isSome_lt hc)

variable [DecidableEq Ty]

theorem visit1_fold_miss (decay : Ty → Ty) (f : Visitor Ty V S R) (p : Nat)
    (c : VariantImpl Ty V) (ts : List Ty) (w : World Ty V S)
    (hc : w.heap.get p = some c) (hts : ∀ t ∈ ts, c.T ≠ decay t) :
    visit1_fold decay f p ts w = some (w.log (misses decay ts)) := by
  induction ts generalizing w with
  | nil => simp [visit1_fold, misses, World.log_nil]
  | cons t ts ih =>
    have ht : c.T ≠ decay t := hts t (List.mem_cons_self _ _)
    have hrest : ∀ u ∈ ts, c.T ≠ decay u := fun u hu => hts u (List.mem_cons_of_mem _ hu)
    simp only [visit1_fold, visit_impl1, hc, ht, if_false]
    rw [ih (w.log [Event.dyncast (decay t) false]) hc hrest, World.log_log]
    simp [misses]

theorem visit1_fold_append (decay : Ty → Ty) (f : Visitor Ty V S R) (p : Nat)
    (xs ys : List Ty) (w : World Ty V S) :
    visit1_fold decay f p (xs ++ ys) w
      = (visit1_fold decay f p xs w).bind (visit1_fold decay f p ys) := by
  induction xs generalizing w with
  | nil => simp [visit1_fold]
  | cons t ts ih =>
    simp only [List.cons_append, visit1_fold]
    cases visit_impl1 decay f p t w with
    | none => simp
    | some w1 => simpa using ih w1

/-- The scan of `variant1_visit1` over a list in which exactly the entry `t` matches. -/
theorem visit1_fold_once (decay : Ty → Ty) (f : Visitor Ty V S R) (p : Nat)
    (c : VariantImpl Ty V) (pre post : List Ty) (t : Ty) (w : World Ty V S)
    (hc : w.heap.get p = some c) (ht : c.T = decay t)
    (hpre : ∀ u ∈ pre, c.T ≠ decay u) (hpost : ∀ u ∈ post, c.T ≠ decay u) :
    visit1_fold decay f p (pre ++ t :: post) w
      = some ((invoke f p (decay t) c
          (w.log (misses decay pre ++ [Event.dyncast (decay t) true]))).log
            (misses decay post)) := by
  rw [visit1_fold_append, visit1_fold_miss decay f p c pre w hc hpre]
  have hc1 : (w.log (misses decay pre)).heap.get p = some c := hc
  simp only [Option.some_bind, visit1_fold, visit_impl1, hc1, ht, if_true, World.log_log]
  have hc2 : (invoke f p (decay t) c
      (w.log (misses decay pre ++ [Event.dyncast (decay t) true]))).heap.get p
      = some ⟨c.T, (f (decay t) c.value_ w.st).value⟩ := by
    have hc3 : (w.log (misses decay pre ++ [Event.dyncast (decay t) true])).heap.get p
        = some c := hc
    rw [invoke_heap_get f p (decay t) c _ hc3]
    simp [World.log]
  exact visit1_fold_miss decay f p _ post _ hc2 hpost

/-- The recursion of `variant1_visit2` over a list one of whose entries matches the cell:
it invokes the visitor once, after events that contain no invocation. -/
theorem visit_impl2_hit (decay : Ty → Ty) (f : Visitor Ty V S R) (p : Nat)
    (c : VariantImpl Ty V) (ts : List Ty) (t : Ty) (w : World Ty V S)
    (hc : w.heap.get p = some c) (hmem : ∃ u ∈ t :: ts, c.T = decay u) :
    ∃ es : List (Event Ty V), calls es = [] ∧
      visit_impl2 decay f p t ts w
        = .ok (invoke f p c.T c (w.log es)) (f c.T c.value_ w.st).ret := by
  induction ts generalizing t w with
  | nil =>
    obtain ⟨u, hu, hcu⟩ := hmem
    have hut : u = t := by simpa using hu
    subst hut
    refine ⟨[Event.scast c.T], by simp [calls], ?_⟩
    simp [visit_impl2, hc, hcu]
  | cons t1 ts ih =>
    by_cases ht : c.T = decay t
    · refine ⟨[Event.dyncast c.T true, Event.scast c.T], by simp [calls], ?_⟩
      simp only [visit_impl2, hc]
      rw [if_pos ht, ← ht]
    · have hmem1 : ∃ u ∈ t1 :: ts, c.T = decay u := by
        obtain ⟨u, hu, hcu⟩ := hmem
        rcases List.mem_cons.mp hu with rfl | hu1
        · exact absurd hcu ht
        · exact ⟨u, hu1, hcu⟩
      obtain ⟨es, hes, hrun⟩ :=
        ih t1 (w.log [Event.dyncast (decay t) false]) hc hmem1
      refine ⟨Event.dyncast (decay t) false :: es, by simpa [calls] using hes, ?_⟩
      simp only [visit_impl2, hc]
      rw [if_neg ht, hrun, World.log_log]
      rfl

/-- Frame of the linear scan: cells other than the visited one are untouched. -/
theorem visit1_fold_frame (decay : Ty → Ty) (f : Visitor Ty V S R) (p : Nat)
    (ts : List Ty) (w w1 : World Ty V S) (hrun : visit1_fold decay f p ts w = some w1)
    (b : Nat) (hb : b ≠ p) : w1.heap.get b = w.heap.get b := by
  induction ts generalizing w with
  | nil =>
    simp only [visit1_fold, Option.some.injEq] at hrun
    rw [← hrun]
  | cons t ts ih =>
    simp only [visit1_fold, visit_impl1] at hrun
    cases hc : w.heap.get p with
    | none => simp [hc] at hrun
    | some c =>
      simp only [hc] at hrun
      by_cases ht : c.T = decay t
      · simp only [ht, if_true] at hrun
        rw [ih _ hrun]
        have hc1 : (w.log [Event.dyncast (decay t) true]).heap.get p = some c := hc
        rw [invoke_heap_get f p (decay t) c _ hc1, if_neg hb]
        rfl
      · simp only [ht, if_false] at hrun
        rw [ih _ hrun]
        rfl

/-- Frame of the recursive dispatch: cells other than the visited one are untouched. -/
theorem visit_impl2_frame (decay : Ty → Ty) (f : Visitor Ty V S R) (p : Nat)
    (ts : List Ty) (t : Ty) (w w1 : World Ty V S) (r : R)
    (hrun : visit_impl2 decay f p t ts w = .ok w1 r)
    (b : Nat) (hb : b ≠ p) : w1.heap.get b = w.heap.get b := by
  induction ts generalizing t w with
  | nil =>
    simp only [visit_impl2] at hrun
    cases hc : w.heap.get p with
    | none => simp [hc] at hrun
    | some c =>
      simp only [hc] at hrun
      by_cases ht : c.T = decay t
      · simp only [ht, if_true, Outcome.ok.injEq] at hrun
        rw [← hrun.1]
        have hc1 : (w.log [Event.scast (decay t)]).heap.get p = some c := hc
        rw [invoke_heap_get f p (decay t) c _ hc1, if_neg hb]
        rfl
      · simp [ht] at hrun
  | cons t1 ts ih =>
    simp only [visit_impl2] at hrun
    cases hc : w.heap.get p with
    | none => simp [hc] at hrun
    | some c =>
      simp only [hc] at hrun
      by_cases ht : c.T = decay t
      · simp only [ht, if_true, Outcome.ok.injEq] at hrun
        rw [← hrun.1]
        have hc1 : (w.log [Event.dyncast (decay t) true, Event.scast (decay t)]).heap.get p
            = some c := hc
        rw [invoke_heap_get f p (decay t) c _ hc1, if_neg hb]
        rfl
      · simp only [ht, if_false] at hrun
        rw [ih _ _ hrun]
        rfl

end DispatchLemmas

/-! ## Container lemmas -/

section ContainerLemmas
variable {Ty V S R : Type}

theorem Variant.cell_eq_some {Ts : List Ty} {self : Variant Ts} {h : Heap Ty V}
    {c : VariantImpl Ty V} (hc : self.cell h = some c) :
    ∃ p, self.impl_ = some p ∧ h.get p = some c := by
  unfold Variant.cell at hc
  cases hp : self.impl_ with
  | none => simp [hp] at hc
  | some p => exact ⟨p, rfl, by simpa [hp] using hc⟩

theorem Variant.valid_lt {Ts : List Ty} {self : Variant Ts} {h : Heap Ty V} {a : Nat}
    (hv : self.valid h = true) (ha : self.impl_ = some a) : a < h.cells.length := by
  unfold Variant.valid at hv
  rw [ha] at hv
  obtain ⟨c, hc⟩ := Option.isSome_iff_exists.mp hv
  exact Heap.get_isSome_lt hc

theorem Heap.get_reset (h : Heap Ty V) (p : Option Nat) (b : Nat) :
    (h.reset p).get b = if p = some b then none else h.get b := by
  cases p with
  | none => simp [Heap.reset]
  | some a =>
    simp only [Heap.reset, Heap.get_delete, Option.some.injEq]
    by_cases hba : b = a
    · simp [hba]
    · have hab : ¬ a = b := fun e => hba e.symm
      simp [hba, hab]

theorem make_variant_impl_value (decay : Ty → Ty) (kind : Ty → ArgKind) (h : Heap Ty V)
    (T : Ty) (x : V) (hk : kind T = ArgKind.value) :
    make_variant_impl decay kind h T x
      = .ok (h.make_unique ⟨decay T, x⟩).1 h.cells.length := by
  simp [make_variant_impl, hk, Heap.make_unique]

theorem Variant.ctor_value_value (decay : Ty → Ty) (kind : Ty → ArgKind) (Ts : List Ty)
    (h : Heap Ty V) (T : Ty) (x : V) (hk : kind T = ArgKind.value) :
    Variant.ctor_value decay kind Ts h T x
      = .ok (h.make_unique ⟨decay T, x⟩).1 ⟨some h.cells.length⟩ := by
  simp [Variant.ctor_value, make_variant_impl_value decay kind h T x hk, Outcome.bind]

theorem Variant.assign_value_value (decay : Ty → Ty) (kind : Ty → ArgKind) {Ts : List Ty}
    (h : Heap Ty V) (self : Variant Ts) (T : Ty) (x : V) (hk : kind T = ArgKind.value) :
    Variant.assign_value decay kind h self T x
      = .ok ((h.make_unique ⟨decay T, x⟩).1.reset self.impl_) ⟨some h.cells.length⟩ := by
  simp [Variant.assign_value, make_variant_impl_value decay kind h T x hk, Outcome.bind]

/-- A value construction that returns was given a value type. -/
theorem Variant.ctor_value_ok_kind (decay : Ty → Ty) (kind : Ty → ArgKind) (Ts : List Ty)
    (h h1 : Heap Ty V) (v1 : Variant Ts) (T : Ty) (x : V)
    (hrun : Variant.ctor_value decay kind Ts h T x = .ok h1 v1) :
    kind T = ArgKind.value := by
  cases hk : kind T with
  | value => rfl
  | notCopyable => simp [Variant.ctor_value, make_variant_impl, hk, Outcome.bind] at hrun
  | forwarded => simp [Variant.ctor_value, make_variant_impl, hk, Outcome.bind] at hrun

/-- The variant built on a fresh cell holds that cell. -/
theorem Variant.cell_fresh (Ts : List Ty) (h : Heap Ty V) (c : VariantImpl Ty V) :
    (⟨some h.cells.length⟩ : Variant Ts).cell (h.make_unique c).1 = some c := by
  simp only [Variant.cell, Option.some_bind]
  exact Heap.get_make_unique_self h c

/-- The variant assigned a fresh cell holds that cell once its prior cell is released. -/
theorem Variant.cell_fresh_reset {Ts : List Ty} (h : Heap Ty V) (self : Variant Ts)
    (c : VariantImpl Ty V) (hv : self.valid h = true) :
    (⟨some h.cells.length⟩ : Variant Ts).cell ((h.make_unique c).1.reset self.impl_)
      = some c := by
  simp only [Variant.cell, Option.some_bind, Heap.get_reset]
  have hne : ¬ self.impl_ = some h.cells.length := by
    intro ha
    have := Variant.valid_lt hv ha
    omega
  rw [if_neg hne]
  exact Heap.get_make_unique_self h c

theorem Variant.ctor_copy_ok {Ts : List Ty} (h : Heap Ty V) (other : Variant Ts)
    (c : VariantImpl Ty V) (hc : other.cell h = some c) :
    Variant.ctor_copy h other = .ok (h.make_unique c).1 ⟨some h.cells.length⟩ := by
  obtain ⟨p, hp, hget⟩ := Variant.cell_eq_some hc
  simp [Variant.ctor_copy, hp, hget, VariantImpl.clone, Heap.make_unique]

/-- A live cell keeps its address and content across an allocation. -/
theorem Variant.cell_make_unique {Ts : List Ty} (h : Heap Ty V) (self : Variant Ts)
    (c d : VariantImpl Ty V) (hc : self.cell h = some c) :
    self.cell (h.make_unique d).1 = some c := by
  obtain ⟨p, hp, hget⟩ := Variant.cell_eq_some hc
  have hlt := Heap.get_isSome_lt hget
  simp only [Variant.cell, hp, Option.some_bind]
  rw [Heap.get_make_unique_ne h d (by omega), hget]

end ContainerLemmas

/-! ## Exactly-one dispatch -/

section Once
variable {Ty V S R : Type}

theorem Outcome.invocations_ok {α : Type} (w : World Ty V S) (r : α) :
    (Outcome.ok w r : Outcome (World Ty V S) α).invocations = some (calls w.trace) := rfl

variable [DecidableEq Ty]

/-- The linear scan returns whenever the visited cell is live, and keeps its type. -/
theorem visit1_fold_total (decay : Ty → Ty) (f : Visitor Ty V S R) (p : Nat)
    (ts : List Ty) (w : World Ty V S) (c : VariantImpl Ty V) (hc : w.heap.get p = some c) :
    ∃ w1, visit1_fold decay f p ts w = some w1 := by
  induction ts generalizing w c with
  | nil => exact ⟨w, rfl⟩
  | cons t ts ih =>
    simp only [visit1_fold, visit_impl1, hc]
    by_cases ht : c.T = decay t
    · simp only [ht, if_true]
      have hc1 : (w.log [Event.dyncast (decay t) true]).heap.get p = some c := hc
      exact ih _ _ (by rw [invoke_heap_get f p (decay t) c _ hc1, if_pos rfl])
    · simp only [ht, if_false]
      exact ih _ c hc

/-- Linear scan over a list whose decayed entries are pairwise distinct: one invocation. -/
theorem visit1_once (decay : Ty → Ty) {Ts : List Ty} (self : Variant Ts)
    (f : Visitor Ty V S R) (w : World Ty V S) (Ti : Ty) (v : V)
    (hnd : (Ts.map decay).Nodup) (hTi : Ti ∈ Ts)
    (hcell : self.cell w.heap = some ⟨decay Ti, v⟩) :
    ∃ w1, self.visit1 decay f w = .ok w1 () ∧
      calls w1.trace = calls w.trace ++ [(decay Ti, v)] ∧
      w1.st = (f (decay Ti) v w.st).st ∧
      self.cell w1.heap = some ⟨decay Ti, (f (decay Ti) v w.st).value⟩ ∧
      ∀ b, self.impl_ ≠ some b → w1.heap.get b = w.heap.get b := by
  obtain ⟨p, hp, hget⟩ := Variant.cell_eq_some hcell
  obtain ⟨pre, post, hsplit⟩ := List.append_of_mem hTi
  subst hsplit
  rw [List.map_append, List.map_cons] at hnd
  have hnd1 := List.nodup_append.mp hnd
  have hpre : ∀ u ∈ pre, decay Ti ≠ decay u := by
    intro u hu he
    exact hnd1.2.2 (List.mem_map_of_mem decay hu) (he ▸ List.mem_cons_self _ _)
  have hpost : ∀ u ∈ post, decay Ti ≠ decay u := by
    intro u hu he
    exact (List.nodup_cons.mp hnd1.2.1).1 (he ▸ List.mem_map_of_mem decay hu)
  have hrun := visit1_fold_once decay f p ⟨decay Ti, v⟩ pre post Ti w hget rfl hpre hpost
  have hv : self.visit1 decay f w = .ok ((invoke f p (decay Ti) ⟨decay Ti, v⟩
      (w.log (misses decay pre ++ [Event.dyncast (decay Ti) true]))).log
        (misses decay post)) () := by
    simp only [Variant.visit1, hp, hrun]
  refine ⟨_, hv, ?_, ?_, ?_, ?_⟩
  · simp [World.log, invoke, calls_append, calls_misses, calls]
  · simp [World.log, invoke]
  · simp only [Variant.cell, hp, Option.some_bind]
    show (invoke f p (decay Ti) ⟨decay Ti, v⟩ _).heap.get p = _
    rw [invoke_heap_get f p (decay Ti) _ _ (by exact hget), if_pos rfl]
    rfl
  · intro b hb
    have hbp : b ≠ p := fun e => hb (e ▸ hp)
    show (invoke f p (decay Ti) ⟨decay Ti, v⟩ _).heap.get b = _
    rw [invoke_heap_get f p (decay Ti) _ _ (by exact hget), if_neg hbp]
    rfl

/-- Recursive dispatch over a list containing the held type: one invocation, whose
result is returned. -/
theorem visit2_once (decay : Ty → Ty) {Ts : List Ty} (self : Variant Ts)
    (f : Visitor Ty V S R) (w : World Ty V S) (Ti : Ty) (v : V)
    (hTi : Ti ∈ Ts) (hcell : self.cell w.heap = some ⟨decay Ti, v⟩) :
    ∃ w1, self.visit2 decay f w = .ok w1 (f (decay Ti) v w.st).ret ∧
      calls w1.trace = calls w.trace ++ [(decay Ti, v)] ∧
      w1.st = (f (decay Ti) v w.st).st ∧
      self.cell w1.heap = some ⟨decay Ti, (f (decay Ti) v w.st).value⟩ ∧
      ∀ b, self.impl_ ≠ some b → w1.heap.get b = w.heap.get b := by
  obtain ⟨p, hp, hget⟩ := Variant.cell_eq_some hcell
  cases Ts with
  | nil => simp at hTi
  | cons t ts =>
    obtain ⟨es, hes, hrun⟩ :=
      visit_impl2_hit decay f p ⟨decay Ti, v⟩ ts t w hget ⟨Ti, hTi, rfl⟩
    have hv : Variant.visit2 decay self f w
        = .ok (invoke f p (decay Ti) ⟨decay Ti, v⟩ (w.log es)) (f (decay Ti) v w.st).ret := by
      simp only [Variant.visit2, hp, hrun]
    refine ⟨_, hv, ?_, ?_, ?_, ?_⟩
    · simp [World.log, invoke, calls_append, hes, calls]
    · simp [World.log, invoke]
    · simp only [Variant.cell, hp, Option.some_bind]
      rw [invoke_heap_get f p (decay Ti) _ _ (by exact hget), if_pos rfl]
      rfl
    · intro b hb
      have hbp : b ≠ p := fun e => hb (e ▸ hp)
      rw [invoke_heap_get f p (decay Ti) _ _ (by exact hget), if_neg hbp]
      rfl

/-- Exactly-one dispatch from an empty trace, for both strategies at once. -/
theorem visit_both_once (decay : Ty → Ty) {Ts : List Ty} (self : Variant Ts)
    (f : Visitor Ty V S R) (h : Heap Ty V) (s : S) (Ti : Ty) (v : V)
    (hnd : (Ts.map decay).Nodup) (hTi : Ti ∈ Ts)
    (hcell : self.cell h = some ⟨decay Ti, v⟩) :
    (self.visit1 decay f ⟨h, s, []⟩).invocations = some [(decay Ti, v)] ∧
    (self.visit2 decay f ⟨h, s, []⟩).invocations = some [(decay Ti, v)] := by
  obtain ⟨w1, h1, h2, _⟩ := visit1_once decay self f ⟨h, s, []⟩ Ti v hnd hTi hcell
  obtain ⟨w2, k1, k2, _⟩ := visit2_once decay self f ⟨h, s, []⟩ Ti v hTi hcell
  rw [h1, k1, Outcome.invocations_ok, Outcome.invocations_ok, h2, k2]
  exact ⟨rfl, rfl⟩

end Once

/-! ## Traces of the two strategies -/

section Traces
variable {Ty V S R : Type}

theorem tests_misses (decay : Ty → Ty) (ts : List Ty) :
    tests (misses decay ts : List (Event Ty V)) = ts.map (fun t => (decay t, false)) := by
  induction ts with
  | nil => rfl
  | cons t ts ih => simpa [misses, tests] using ih

theorem calls_castEvents (T : Ty) (post : List Ty) :
    calls (castEvents T post : List (Event Ty V)) = [] := by
  cases post <;> rfl

theorem tests_castEvents (T : Ty) (post : List Ty) :
    tests (castEvents T post : List (Event Ty V))
      = if post.isEmpty then [] else [(T, true)] := by
  cases post <;> simp [castEvents, tests]

theorem repeatCall_length (f : Visitor Ty V S R) (T : Ty) (k : Nat) (v : V) (s : S) :
    (repeatCall f T k v s).1.length = k := by
  induction k generalizing v s with
  | zero => rfl
  | succ k ih => simp [repeatCall, ih]

/-- A list is split at the first position `k` whose decayed entry is `T`. -/
theorem split_at_first (decay : Ty → Ty) (T : Ty) (Ts : List Ty) (k : Nat)
    (hk : (Ts.map decay)[k]? = some T)
    (hfirst : ∀ j, j < k → (Ts.map decay)[j]? ≠ some T) :
    ∃ pre u post, Ts = pre ++ u :: post ∧ pre.length = k ∧ T = decay u ∧
      ∀ x ∈ pre, T ≠ decay x := by
  have hlt : k < Ts.length := by
    by_contra hge
    have : (Ts.map decay)[k]? = none := List.getElem?_eq_none (by simp; omega)
    simp [this] at hk
  refine ⟨Ts.take k, Ts[k], Ts.drop (k + 1), ?_, ?_, ?_, ?_⟩
  · rw [← List.drop_eq_getElem_cons hlt, List.take_append_drop]
  · simp [List.length_take]
    omega
  · have : (Ts.map decay)[k]? = some (decay Ts[k]) := by
      simp [List.getElem?_map, List.getElem?_eq_getElem hlt]
    rw [this] at hk
    exact (Option.some.inj hk).symm
  · intro x hx he
    obtain ⟨j, hj⟩ := List.mem_iff_getElem?.mp hx
    rw [List.getElem?_take] at hj
    by_cases hjk : j < k
    · rw [if_pos hjk] at hj
      apply hfirst j hjk
      simp [List.getElem?_map, hj, he]
    · rw [if_neg hjk] at hj
      cases hj

variable [DecidableEq Ty]

/-- The recursion of `variant1_visit2` on a list split at the first entry that decays to
the type of the cell: the events it adds and the world it returns. -/
theorem visit_impl2_trace (decay : Ty → Ty) (f : Visitor Ty V S R) (p : Nat)
    (c : VariantImpl Ty V) (pre post : List Ty) (u t : Ty) (ts : List Ty)
    (w : World Ty V S) (hc : w.heap.get p = some c)
    (hsplit : t :: ts = pre ++ u :: post) (hu : c.T = decay u)
    (hpre : ∀ x ∈ pre, c.T ≠ decay x) :
    visit_impl2 decay f p t ts w
      = .ok (invoke f p c.T c (w.log (misses decay pre ++ castEvents c.T post)))
          (f c.T c.value_ w.st).ret := by
  induction pre generalizing t ts w with
  | nil =>
    simp only [List.nil_append, List.cons.injEq] at hsplit
    obtain ⟨htu, hts⟩ := hsplit
    subst htu
    subst hts
    cases ts with
    | nil => simp [visit_impl2, hc, hu, misses, castEvents]
    | cons t1 ts1 => simp [visit_impl2, hc, hu, misses, castEvents]
  | cons x pre1 ih =>
    simp only [List.cons_append, List.cons.injEq] at hsplit
    obtain ⟨htx, hts⟩ := hsplit
    subst htx
    have hx : c.T ≠ decay t := hpre t (List.mem_cons_self _ _)
    have hpre1 : ∀ y ∈ pre1, c.T ≠ decay y := fun y hy => hpre y (List.mem_cons_of_mem _ hy)
    cases ts with
    | nil => cases pre1 <;> simp at hts
    | cons t1 ts1 =>
      simp only [visit_impl2, hc]
      rw [if_neg hx, ih t1 ts1 (w.log [Event.dyncast (decay t) false]) hc hts hpre1,
        World.log_log]
      rfl

/-- The scan of `variant1_visit1` over any list, for a live cell of type `T`: it returns,
tests every position in order, and makes one invocation per entry that decays to `T`,
each on the value the previous one left. -/
theorem visit1_fold_scan (decay : Ty → Ty) (f : Visitor Ty V S R) (p : Nat) (T : Ty)
    (ts : List Ty) (w : World Ty V S) (v : V) (hc : w.heap.get p = some ⟨T, v⟩) :
    ∃ w1 es, visit1_fold decay f p ts w = some w1 ∧ w1.trace = w.trace ++ es ∧
      tests es = ts.map (fun t => (decay t, decide (T = decay t))) ∧
      es.map Event.shape = scanShape decay T ts ∧
      calls es = (repeatCall f T ((ts.map decay).count T) v w.st).1 ∧
      w1.heap.get p = some ⟨T, (repeatCall f T ((ts.map decay).count T) v w.st).2.1⟩ ∧
      w1.st = (repeatCall f T ((ts.map decay).count T) v w.st).2.2 ∧
      ∀ b, b ≠ p → w1.heap.get b = w.heap.get b := by
  induction ts generalizing w v with
  | nil =>
    exact ⟨w, [], rfl, by simp, rfl, rfl, rfl, by simpa [repeatCall] using hc, rfl,
      fun _ _ => rfl⟩
  | cons t ts ih =>
    by_cases ht : T = decay t
    · have hc0 : (w.log [Event.dyncast (decay t) true]).heap.get p = some ⟨T, v⟩ := hc
      have hc1 : (invoke f p (decay t) ⟨T, v⟩
          (w.log [Event.dyncast (decay t) true])).heap.get p
          = some ⟨T, (f (decay t) v w.st).value⟩ := by
        rw [invoke_heap_get f p (decay t) _ _ hc0, if_pos rfl]
        rfl
      obtain ⟨w1, es, hrun, htr, hte, hsh, hca, hget, hst, hfr⟩ := ih _ _ hc1
      refine ⟨w1, [Event.dyncast (decay t) true, Event.call (decay t) v] ++ es, ?_, ?_, ?_,
        ?_, ?_, ?_, ?_, ?_⟩
      · simp only [visit1_fold, visit_impl1, hc]
        rw [if_pos ht]
        exact hrun
      · rw [htr]
        simp [invoke, World.log]
      · simp [tests, hte, ht]
      · simp [Event.shape, scanShape, hsh, ht]
      · rw [← ht] at hca hget hst ⊢
        simp only [List.map_cons, ← ht, List.count_cons_self, repeatCall]
        simpa [calls, invoke, World.log] using hca
      · rw [← ht] at hca hget hst
        simp only [List.map_cons, ← ht, List.count_cons_self, repeatCall]
        simpa [invoke, World.log] using hget
      · rw [← ht] at hca hget hst
        simp only [List.map_cons, ← ht, List.count_cons_self, repeatCall]
        simpa [invoke, World.log] using hst
      · intro b hb
        rw [hfr b hb, invoke_heap_get f p (decay t) _ _ hc0, if_neg hb]
        rfl
    · have hc0 : (w.log [Event.dyncast (decay t) false]).heap.get p = some ⟨T, v⟩ := hc
      obtain ⟨w1, es, hrun, htr, hte, hsh, hca, hget, hst, hfr⟩ := ih _ _ hc0
      have hne : decay t ≠ T := fun e => ht e.symm
      refine ⟨w1, Event.dyncast (decay t) false :: es, ?_, ?_, ?_, ?_, ?_, ?_, ?_, ?_⟩
      · simp only [visit1_fold, visit_impl1, hc]
        rw [if_neg ht]
        exact hrun
      · rw [htr]
        simp [World.log]
      · simp [tests, hte, ht]
      · simp [Event.shape, scanShape, hsh, ht]
      · simpa [List.count_cons, hne, calls, World.log] using hca
      · simpa [List.count_cons, hne, World.log] using hget
      · simpa [List.count_cons, hne, World.log] using hst
      · intro b hb
        rw [hfr b hb]
        rfl

theorem Variant.visit1_of_fold (decay : Ty → Ty) (f : Visitor Ty V S R) {Ts : List Ty}
    (self : Variant Ts) (w w1 : World Ty V S) (p : Nat) (hp : self.impl_ = some p)
    (hrun : visit1_fold decay f p Ts w = some w1) :
    self.visit1 decay f w = .ok w1 () := by
  simp only [Variant.visit1, hp, hrun]

/-- The method `visit` of `variant1_visit2` on a list split at the first entry that decays
to the type of the cell. -/
theorem Variant.visit2_of_split (decay : Ty → Ty) (f : Visitor Ty V S R) {Ts : List Ty}
    (self : Variant Ts) (w : World Ty V S) (p : Nat) (c : VariantImpl Ty V)
    (pre post : List Ty) (u : Ty) (hp : self.impl_ = some p) (hc : w.heap.get p = some c)
    (hsplit : Ts = pre ++ u :: post) (hu : c.T = decay u)
    (hpre : ∀ x ∈ pre, c.T ≠ decay x) :
    self.visit2 decay f w
      = .ok (invoke f p c.T c (w.log (misses decay pre ++ castEvents c.T post)))
          (f c.T c.value_ w.st).ret := by
  cases Ts with
  | nil => cases pre <;> simp at hsplit
  | cons t ts =>
    simp only [Variant.visit2, hp]
    exact visit_impl2_trace decay f p c pre post u t ts w hc hsplit hu hpre

/-- The tests of a dispatch that stops at the first matching entry, as a prefix of the
decayed list. -/
theorem tests_first_match (decay : Ty → Ty) (T : Ty) (pre post : List Ty) (u : Ty)
    (hu : T = decay u) (hpre : ∀ x ∈ pre, T ≠ decay x) :
    (((pre ++ u :: post).map decay).take
        (min (pre.length + 1) ((pre ++ u :: post).length - 1))).map
        (fun t => (t, decide (T = t)))
      = pre.map (fun t => (decay t, false)) ++ (if post.isEmpty then [] else [(T, true)]) := by
  have hflags : (pre.map decay).map (fun t => (t, decide (T = t)))
      = pre.map (fun t => (decay t, false)) := by
    rw [List.map_map]
    apply List.map_congr_left
    intro x hx
    simp [hpre x hx]
  cases post with
  | nil =>
    have hmin : min (pre.length + 1) ((pre ++ [u]).length - 1) = pre.length := by
      simp
    rw [hmin, List.map_append, List.take_left' (by simp), hflags]
    simp
  | cons y ys =>
    have hmin : min (pre.length + 1) ((pre ++ u :: y :: ys).length - 1) = pre.length + 1 := by
      simp
    have hre : (pre ++ u :: y :: ys).map decay
        = (pre.map decay ++ [decay u]) ++ (y :: ys).map decay := by
      simp
    rw [hmin, hre, List.take_left' (by simp), List.map_append, hflags]
    simp [hu]

end Traces

/-! ## Claims -/

section Claims
variable {Ty V S R : Type}

/-- C1 (counterexample): the permitted list `<int, int const>` is non-empty and
duplicate-free, yet for a variant constructed from the `int` 3 the linear scan invokes
the visitor twice, because both entries decay to `int`. -/
theorem C1_counterexample_const_entry :
    ([CTy.int, CTy.constInt] : List CTy) ≠ [] ∧
    ([CTy.int, CTy.constInt] : List CTy).Nodup ∧
    CTy.int ∈ ([CTy.int, CTy.constInt] : List CTy) ∧
    Variant.ctor_value cdecay ckind [CTy.int, CTy.constInt] ⟨[]⟩ CTy.int (CVal.num 3)
      = .ok ⟨[some ⟨CTy.int, CVal.num 3⟩]⟩ ⟨some 0⟩ ∧
    (⟨some 0⟩ : Variant [CTy.int, CTy.constInt]).cell
        (⟨[some ⟨CTy.int, CVal.num 3⟩]⟩ : Heap CTy CVal)
      = some ⟨CTy.int, CVal.num 3⟩ ∧
    ((⟨some 0⟩ : Variant [CTy.int, CTy.constInt]).visit1 cdecay Visit
        ⟨⟨[some ⟨CTy.int, CVal.num 3⟩]⟩, [], []⟩).invocations
      = some [(CTy.int, CVal.num 3), (CTy.int, CVal.num 3)] := by
  decide

/-- C1 (amended): linear-scan visit.  For every permitted list whose entries are
pairwise distinct after decay, every entry `Ti` of it and every value `v`, visiting a
variant that holds `v` in a cell of type `decay Ti` returns normally, invokes the
visitor exactly once, through the overload for `decay Ti` and on `v`, and invokes no
other overload: the visitor state and the stored value are those left by that one call. -/
theorem C1_visit1_exactly_once [DecidableEq Ty] (decay : Ty → Ty) {Ts : List Ty} (self : Variant Ts)
    (f : Visitor Ty V S R) (w : World Ty V S) (Ti : Ty) (v : V)
    (hnd : (Ts.map decay).Nodup) (hTi : Ti ∈ Ts)
    (hcell : self.cell w.heap = some ⟨decay Ti, v⟩) :
    ∃ w1, self.visit1 decay f w = .ok w1 () ∧
      calls w1.trace = calls w.trace ++ [(decay Ti, v)] ∧
      w1.st = (f (decay Ti) v w.st).st ∧
      self.cell w1.heap = some ⟨decay Ti, (f (decay Ti) v w.st).value⟩ := by
  obtain ⟨w1, h1, h2, h3, h4, _⟩ := visit1_once decay self f w Ti v hnd hTi hcell
  exact ⟨w1, h1, h2, h3, h4⟩

/-- C1 (witness): `Variant<int, char const*>` holding 3, visited with `Visit`. -/
theorem C1_visit1_exactly_once_witness :
    (MyTs.map cdecay).Nodup ∧ CTy.int ∈ MyTs ∧
    ∃ w1, (⟨some 0⟩ : Variant MyTs).visit1 cdecay Visit
        ⟨⟨[some ⟨CTy.int, CVal.num 3⟩]⟩, [], []⟩ = .ok w1 () ∧
      calls w1.trace = [(CTy.int, CVal.num 3)] ∧
      w1.st = [("int: ", CVal.num 3)] ∧
      (⟨some 0⟩ : Variant MyTs).cell w1.heap = some ⟨CTy.int, CVal.num 3⟩ :=
  ⟨by decide, by decide,
    C1_visit1_exactly_once cdecay (⟨some 0⟩ : Variant MyTs) Visit
      ⟨⟨[some ⟨CTy.int, CVal.num 3⟩]⟩, [], []⟩ CTy.int (CVal.num 3)
      (by decide) (by decide) (by decide)⟩

/-- C2: short-circuiting recursive visit.  For every permitted list (non-empty and
duplicate-free lists included), every entry `Ti` of it, every value `v` and every
visitor `f`, visiting a variant that holds `v` in a cell of type `decay Ti` invokes
`f` exactly once, on `v` through the overload for `decay Ti`, and returns exactly
the result of that call. -/
theorem C2_visit2_once_returns [DecidableEq Ty] (decay : Ty → Ty) {Ts : List Ty} (self : Variant Ts)
    (f : Visitor Ty V S R) (w : World Ty V S) (Ti : Ty) (v : V)
    (hTi : Ti ∈ Ts) (hcell : self.cell w.heap = some ⟨decay Ti, v⟩) :
    ∃ w1, self.visit2 decay f w = .ok w1 (f (decay Ti) v w.st).ret ∧
      calls w1.trace = calls w.trace ++ [(decay Ti, v)] ∧
      w1.st = (f (decay Ti) v w.st).st ∧
      self.cell w1.heap = some ⟨decay Ti, (f (decay Ti) v w.st).value⟩ := by
  obtain ⟨w1, h1, h2, h3, h4, _⟩ := visit2_once decay self f w Ti v hTi hcell
  exact ⟨w1, h1, h2, h3, h4⟩

/-- C2 (witness): `Variant<int, char const*>` holding "plop", visited with `Visit`. -/
theorem C2_visit2_once_returns_witness :
    CTy.charConstPtr ∈ MyTs ∧
    ∃ w1, (⟨some 0⟩ : Variant MyTs).visit2 cdecay Visit
        ⟨⟨[some ⟨CTy.charConstPtr, CVal.str "plop"⟩]⟩, [], []⟩ = .ok w1 () ∧
      calls w1.trace = [(CTy.charConstPtr, CVal.str "plop")] ∧
      w1.st = [("char*: ", CVal.str "plop")] ∧
      (⟨some 0⟩ : Variant MyTs).cell w1.heap = some ⟨CTy.charConstPtr, CVal.str "plop"⟩ :=
  ⟨by decide,
    C2_visit2_once_returns cdecay (⟨some 0⟩ : Variant MyTs) Visit
      ⟨⟨[some ⟨CTy.charConstPtr, CVal.str "plop"⟩]⟩, [], []⟩ CTy.charConstPtr
      (CVal.str "plop") (by decide) (by decide)⟩

/-- C4 (the code at the failing input): copy construction from an empty variant
dereferences the null `impl_` and is undefined, in every heap; the copy assignment
from the same source tests `other.impl_` and leaves the destination empty. -/
theorem C4_ctor_copy_empty_source_undefined (Ts : List Ty) (h : Heap Ty V)
    (self : Variant Ts) :
    Variant.ctor_copy h (Variant.ctor_default Ts) = Outcome.undefined ∧
    Variant.assign_copy h self (Variant.ctor_default Ts)
      = Outcome.ok (h.reset self.impl_) ⟨none⟩ :=
  ⟨rfl, rfl⟩

/-- C5 (counterexample): `Variant<int, int const>` constructed from the `int` 3 and
copied.  The list is duplicate-free and `int` is a permitted type, yet under the linear
scan a visit of the original, and a visit of the copy, with the mutating visitor `Bump`
invokes it twice, the second time on 4, a value different from 3. -/
theorem C5_counterexample_second_call_sees_mutation :
    ([CTy.int, CTy.constInt] : List CTy).Nodup ∧
    CTy.int ∈ ([CTy.int, CTy.constInt] : List CTy) ∧
    Variant.ctor_value cdecay ckind [CTy.int, CTy.constInt] ⟨[]⟩ CTy.int (CVal.num 3)
      = .ok ⟨[some ⟨CTy.int, CVal.num 3⟩]⟩ ⟨some 0⟩ ∧
    Variant.ctor_copy (⟨[some ⟨CTy.int, CVal.num 3⟩]⟩ : Heap CTy CVal)
        (⟨some 0⟩ : Variant [CTy.int, CTy.constInt])
      = .ok ⟨[some ⟨CTy.int, CVal.num 3⟩, some ⟨CTy.int, CVal.num 3⟩]⟩ ⟨some 1⟩ ∧
    ((⟨some 0⟩ : Variant [CTy.int, CTy.constInt]).visit1 cdecay Bump
        ⟨⟨[some ⟨CTy.int, CVal.num 3⟩, some ⟨CTy.int, CVal.num 3⟩]⟩, (), []⟩).invocations
      = some [(CTy.int, CVal.num 3), (CTy.int, CVal.num 4)] ∧
    ((⟨some 1⟩ : Variant [CTy.int, CTy.constInt]).visit1 cdecay Bump
        ⟨⟨[some ⟨CTy.int, CVal.num 3⟩, some ⟨CTy.int, CVal.num 3⟩]⟩, (), []⟩).invocations
      = some [(CTy.int, CVal.num 3), (CTy.int, CVal.num 4)] := by
  decide

/-- C5 (amended): round-trip clone.  For a permitted list whose entries are pairwise
distinct after decay, a permitted type `T` that is a copy-constructible value type and a
value `v`: a variant is constructed from `v` and can be copied; the original and the copy
are distinct cells and each is visited, under either strategy and by any visitor, with
exactly one invocation, on `v` through the overload for `decay T`.  After any visitor has
run on the copy (and possibly overwritten the value stored there), the original still
holds `v` and visiting it still yields `v`. -/
theorem C5_clone_round_trip [DecidableEq Ty] (decay : Ty → Ty) (kind : Ty → ArgKind)
    (Ts : List Ty) (h : Heap Ty V) (T : Ty) (v : V)
    (hnd : (Ts.map decay).Nodup) (hT : T ∈ Ts) (hk : kind T = ArgKind.value) :
    ∃ h0 orig, Variant.ctor_value decay kind Ts h T v = .ok h0 orig ∧
    ∃ h1 cpy, Variant.ctor_copy h0 orig = .ok h1 cpy ∧
      cpy.impl_ ≠ orig.impl_ ∧
      (∀ (f : Visitor Ty V S R) (s : S),
        (orig.visit1 decay f ⟨h1, s, []⟩).invocations = some [(decay T, v)] ∧
        (orig.visit2 decay f ⟨h1, s, []⟩).invocations = some [(decay T, v)] ∧
        (cpy.visit1 decay f ⟨h1, s, []⟩).invocations = some [(decay T, v)] ∧
        (cpy.visit2 decay f ⟨h1, s, []⟩).invocations = some [(decay T, v)]) ∧
      (∀ (g : Visitor Ty V S R) (s : S) (w : World Ty V S),
        (cpy.visit1 decay g ⟨h1, s, []⟩ = .ok w () ∨
          ∃ r, cpy.visit2 decay g ⟨h1, s, []⟩ = .ok w r) →
        cpy.cell w.heap = some ⟨decay T, (g (decay T) v s).value⟩ ∧
        orig.cell w.heap = some ⟨decay T, v⟩ ∧
        ∀ (f : Visitor Ty V S R) (s2 : S),
          (orig.visit1 decay f ⟨w.heap, s2, []⟩).invocations = some [(decay T, v)] ∧
          (orig.visit2 decay f ⟨w.heap, s2, []⟩).invocations = some [(decay T, v)]) := by
  obtain ⟨h0, orig, hctor, ho, hoimpl, hlen⟩ :
      ∃ (h0 : Heap Ty V) (orig : Variant Ts),
        Variant.ctor_value decay kind Ts h T v = .ok h0 orig ∧
        orig.cell h0 = some ⟨decay T, v⟩ ∧ orig.impl_ = some h.cells.length ∧
        h0.cells.length = h.cells.length + 1 :=
    ⟨_, _, Variant.ctor_value_value decay kind Ts h T v hk, Variant.cell_fresh Ts h _, rfl,
      by simp [Heap.make_unique]⟩
  have hne : (⟨some h0.cells.length⟩ : Variant Ts).impl_ ≠ orig.impl_ := by
    rw [hoimpl]
    simp only [ne_eq, Option.some.injEq]
    omega
  have ho1 : orig.cell (h0.make_unique ⟨decay T, v⟩).1 = some ⟨decay T, v⟩ :=
    Variant.cell_make_unique h0 orig _ _ ho
  have hc1 : (⟨some h0.cells.length⟩ : Variant Ts).cell (h0.make_unique ⟨decay T, v⟩).1
      = some ⟨decay T, v⟩ := by
    simp only [Variant.cell, Option.some_bind]
    exact Heap.get_make_unique_self h0 _
  refine ⟨h0, orig, hctor, _, _, Variant.ctor_copy_ok h0 orig _ ho, hne, ?_, ?_⟩
  · intro f s
    obtain ⟨a1, a2⟩ := visit_both_once decay orig f _ s T v hnd hT ho1
    obtain ⟨b1, b2⟩ := visit_both_once decay (⟨some h0.cells.length⟩ : Variant Ts) f _ s T v
      hnd hT hc1
    exact ⟨a1, a2, b1, b2⟩
  · intro g s w hrun
    have key : (⟨some h0.cells.length⟩ : Variant Ts).cell w.heap
          = some ⟨decay T, (g (decay T) v s).value⟩ ∧
        ∀ b, (⟨some h0.cells.length⟩ : Variant Ts).impl_ ≠ some b →
          w.heap.get b = (h0.make_unique ⟨decay T, v⟩).1.get b := by
      rcases hrun with hrun | ⟨r, hrun⟩
      · obtain ⟨w1, k1, _, _, k4, k5⟩ :=
          visit1_once decay (⟨some h0.cells.length⟩ : Variant Ts) g
            ⟨(h0.make_unique ⟨decay T, v⟩).1, s, []⟩ T v hnd hT hc1
        rw [k1] at hrun
        simp only [Outcome.ok.injEq, and_true] at hrun
        subst hrun
        exact ⟨k4, k5⟩
      · obtain ⟨w1, k1, _, _, k4, k5⟩ :=
          visit2_once decay (⟨some h0.cells.length⟩ : Variant Ts) g
            ⟨(h0.make_unique ⟨decay T, v⟩).1, s, []⟩ T v hT hc1
        rw [k1] at hrun
        simp only [Outcome.ok.injEq] at hrun
        obtain ⟨hw, _⟩ := hrun
        subst hw
        exact ⟨k4, k5⟩
    have ho2 : orig.cell w.heap = some ⟨decay T, v⟩ := by
      obtain ⟨p, hp, hget⟩ := Variant.cell_eq_some ho1
      simp only [Variant.cell, hp, Option.some_bind]
      rw [key.2 p (by rw [← hp]; exact hne), hget]
    exact ⟨key.1, ho2, fun f s2 => visit_both_once decay orig f _ s2 T v hnd hT ho2⟩

/-- C5 (witness): `Variant<int, char const*>` constructed from 3 and copied; `Bump`
overwrites the 3 stored in the copy with 4 and the original still holds 3. -/
theorem C5_clone_round_trip_witness :
    ((MyTs.map cdecay).Nodup ∧ CTy.int ∈ MyTs ∧ ckind CTy.int = ArgKind.value) ∧
    (∃ h0 orig, Variant.ctor_value cdecay ckind MyTs (⟨[]⟩ : Heap CTy CVal) CTy.int
        (CVal.num 3) = .ok h0 orig ∧
    ∃ h1 cpy, Variant.ctor_copy h0 orig = .ok h1 cpy ∧
      cpy.impl_ ≠ orig.impl_ ∧
      (∀ (f : Visitor CTy CVal Unit Unit) (s : Unit),
        (orig.visit1 cdecay f ⟨h1, s, []⟩).invocations = some [(CTy.int, CVal.num 3)] ∧
        (orig.visit2 cdecay f ⟨h1, s, []⟩).invocations = some [(CTy.int, CVal.num 3)] ∧
        (cpy.visit1 cdecay f ⟨h1, s, []⟩).invocations = some [(CTy.int, CVal.num 3)] ∧
        (cpy.visit2 cdecay f ⟨h1, s, []⟩).invocations = some [(CTy.int, CVal.num 3)]) ∧
      (∀ (g : Visitor CTy CVal Unit Unit) (s : Unit) (w : World CTy CVal Unit),
        (cpy.visit1 cdecay g ⟨h1, s, []⟩ = .ok w () ∨
          ∃ r, cpy.visit2 cdecay g ⟨h1, s, []⟩ = .ok w r) →
        cpy.cell w.heap = some ⟨CTy.int, (g CTy.int (CVal.num 3) s).value⟩ ∧
        orig.cell w.heap = some ⟨CTy.int, CVal.num 3⟩ ∧
        ∀ (f : Visitor CTy CVal Unit Unit) (s2 : Unit),
          (orig.visit1 cdecay f ⟨w.heap, s2, []⟩).invocations
            = some [(CTy.int, CVal.num 3)] ∧
          (orig.visit2 cdecay f ⟨w.heap, s2, []⟩).invocations
            = some [(CTy.int, CVal.num 3)])) ∧
    Variant.ctor_value cdecay ckind MyTs (⟨[]⟩ : Heap CTy CVal) CTy.int (CVal.num 3)
      = .ok ⟨[some ⟨CTy.int, CVal.num 3⟩]⟩ ⟨some 0⟩ ∧
    Variant.ctor_copy (⟨[some ⟨CTy.int, CVal.num 3⟩]⟩ : Heap CTy CVal)
        (⟨some 0⟩ : Variant MyTs)
      = .ok ⟨[some ⟨CTy.int, CVal.num 3⟩, some ⟨CTy.int, CVal.num 3⟩]⟩ ⟨some 1⟩ ∧
    (⟨some 1⟩ : Variant MyTs).visit1 cdecay Bump
        ⟨⟨[some ⟨CTy.int, CVal.num 3⟩, some ⟨CTy.int, CVal.num 3⟩]⟩, (), []⟩
      = .ok ⟨⟨[some ⟨CTy.int, CVal.num 3⟩, some ⟨CTy.int, CVal.num 4⟩]⟩, (),
          [.dyncast CTy.int true, .call CTy.int (CVal.num 3),
            .dyncast CTy.charConstPtr false]⟩ () :=
  ⟨⟨by decide, by decide, by decide⟩,
    C5_clone_round_trip cdecay ckind MyTs ⟨[]⟩ CTy.int (CVal.num 3)
      (by decide) (by decide) (by decide),
    by decide, by decide, by decide⟩

/-- C7: move leaves the source empty.  Move construction of `B` from `A` leaves `A`
empty and gives `B` the very cell `A` owned (empty if `A` was empty), without touching the
heap.  Move assignment `B = std::move(A)`, for `A` and `B` that do not share a cell, does
the same and destroys the cell `B` held before, which is no longer held. -/
theorem C7_move_leaves_source_empty {Ts : List Ty} (h : Heap Ty V) (A B : Variant Ts)
    (hown : ∀ a, B.impl_ = some a → A.impl_ ≠ some a) :
    ((Variant.ctor_move A).2.impl_ = none ∧
      (Variant.ctor_move A).1.impl_ = A.impl_ ∧
      (Variant.ctor_move A).1.cell h = A.cell h) ∧
    ((Variant.assign_move h B A).2.2.impl_ = none ∧
      (Variant.assign_move h B A).2.1.impl_ = A.impl_ ∧
      (Variant.assign_move h B A).2.1.cell (Variant.assign_move h B A).1 = A.cell h ∧
      ∀ a, B.impl_ = some a →
        (Variant.assign_move h B A).1.get a = none ∧
        (Variant.assign_move h B A).2.1.impl_ ≠ some a) := by
  refine ⟨⟨rfl, rfl, rfl⟩, rfl, rfl, ?_, ?_⟩
  · simp only [Variant.assign_move, Variant.cell]
    cases hA : A.impl_ with
    | none => rfl
    | some q =>
      have hBq : B.impl_ ≠ some q := fun hb => hown q hb hA
      simp only [Option.some_bind, Heap.get_reset, if_neg hBq]
  · intro a ha
    exact ⟨by simp [Variant.assign_move, Heap.get_reset, ha], hown a ha⟩

/-- C7 (witness): `A` holds 3 and `B` holds "plop"; after the move assignment `A` is
empty, `B` holds 3 and the cell of "plop" is gone. -/
theorem C7_move_leaves_source_empty_witness :
    (∀ a, (⟨some 1⟩ : Variant MyTs).impl_ = some a → (⟨some 0⟩ : Variant MyTs).impl_ ≠ some a) ∧
    ((Variant.ctor_move (⟨some 0⟩ : Variant MyTs)).2.impl_ = none ∧
      (Variant.ctor_move (⟨some 0⟩ : Variant MyTs)).1.impl_ = some 0 ∧
      (Variant.ctor_move (⟨some 0⟩ : Variant MyTs)).1.cell
          (⟨[some ⟨CTy.int, CVal.num 3⟩, some ⟨CTy.charConstPtr, CVal.str "plop"⟩]⟩ :
            Heap CTy CVal)
        = some ⟨CTy.int, CVal.num 3⟩) ∧
    ((Variant.assign_move
          (⟨[some ⟨CTy.int, CVal.num 3⟩, some ⟨CTy.charConstPtr, CVal.str "plop"⟩]⟩ :
            Heap CTy CVal) (⟨some 1⟩ : Variant MyTs) (⟨some 0⟩ : Variant MyTs)).2.2.impl_ = none ∧
      (Variant.assign_move
          (⟨[some ⟨CTy.int, CVal.num 3⟩, some ⟨CTy.charConstPtr, CVal.str "plop"⟩]⟩ :
            Heap CTy CVal) (⟨some 1⟩ : Variant MyTs) (⟨some 0⟩ : Variant MyTs)).2.1.impl_
        = some 0 ∧
      (Variant.assign_move
          (⟨[some ⟨CTy.int, CVal.num 3⟩, some ⟨CTy.charConstPtr, CVal.str "plop"⟩]⟩ :
            Heap CTy CVal) (⟨some 1⟩ : Variant MyTs) (⟨some 0⟩ : Variant MyTs)).2.1.cell
          (Variant.assign_move
            (⟨[some ⟨CTy.int, CVal.num 3⟩, some ⟨CTy.charConstPtr, CVal.str "plop"⟩]⟩ :
              Heap CTy CVal) (⟨some 1⟩ : Variant MyTs) (⟨some 0⟩ : Variant MyTs)).1
        = some ⟨CTy.int, CVal.num 3⟩ ∧
      ∀ a, (⟨some 1⟩ : Variant MyTs).impl_ = some a →
        (Variant.assign_move
            (⟨[some ⟨CTy.int, CVal.num 3⟩, some ⟨CTy.charConstPtr, CVal.str "plop"⟩]⟩ :
              Heap CTy CVal) (⟨some 1⟩ : Variant MyTs) (⟨some 0⟩ : Variant MyTs)).1.get a
          = none ∧
        (Variant.assign_move
            (⟨[some ⟨CTy.int, CVal.num 3⟩, some ⟨CTy.charConstPtr, CVal.str "plop"⟩]⟩ :
              Heap CTy CVal) (⟨some 1⟩ : Variant MyTs) (⟨some 0⟩ : Variant MyTs)).2.1.impl_
          ≠ some a) :=
  ⟨by decide,
    C7_move_leaves_source_empty
      (⟨[some ⟨CTy.int, CVal.num 3⟩, some ⟨CTy.charConstPtr, CVal.str "plop"⟩]⟩ :
        Heap CTy CVal) (⟨some 0⟩ : Variant MyTs) (⟨some 1⟩ : Variant MyTs) (by decide)⟩

/-- C8: visiting an empty variant is a checked precondition violation in both
strategies.  A default-constructed and a moved-from variant are empty, and for every empty
variant and every visitor `visit` stops at `assert(impl_)` in the state it was called in:
no type test was made and no overload invoked.  For a variant holding a cell of a
permitted type the assertion passes and `visit` returns. -/
theorem C8_visit_empty_asserts [DecidableEq Ty] (decay : Ty → Ty) {Ts : List Ty}
    (e other self : Variant Ts) (f : Visitor Ty V S R) (w : World Ty V S)
    (c : VariantImpl Ty V) (hne : Ts ≠ []) (he : e.impl_ = none)
    (hcell : self.cell w.heap = some c) (hmem : c.T ∈ Ts.map decay) :
    ((Variant.ctor_default Ts).impl_ = none ∧ (Variant.ctor_move other).2.impl_ = none ∧
      (Variant.assign_move w.heap self other).2.2.impl_ = none) ∧
    (e.visit1 decay f w = .assertFail w ∧ e.visit2 decay f w = .assertFail w) ∧
    ((∃ w1, self.visit1 decay f w = .ok w1 ()) ∧
      (∃ w1 r, self.visit2 decay f w = .ok w1 r)) := by
  obtain ⟨p, hp, hget⟩ := Variant.cell_eq_some hcell
  refine ⟨⟨rfl, rfl, rfl⟩, ⟨by simp [Variant.visit1, he], ?_⟩, ?_, ?_⟩
  · cases Ts with
    | nil => exact absurd rfl hne
    | cons t ts => simp [Variant.visit2, he]
  · obtain ⟨w1, hw1⟩ := visit1_fold_total decay f p Ts w c hget
    exact ⟨w1, by simp [Variant.visit1, hp, hw1]⟩
  · obtain ⟨Ti, hTi, hdec⟩ := List.mem_map.mp hmem
    have hcell1 : self.cell w.heap = some ⟨decay Ti, c.value_⟩ := by
      rw [hcell, hdec]
    obtain ⟨w1, hw1, _⟩ := visit2_once decay self f w Ti c.value_ hTi hcell1
    exact ⟨w1, _, hw1⟩

/-- C8 (witness): the default-constructed `MyVariant` against one holding 3. -/
theorem C8_visit_empty_asserts_witness :
    (MyTs ≠ [] ∧ (Variant.ctor_default MyTs).impl_ = none ∧
      (⟨some 0⟩ : Variant MyTs).cell (⟨[some ⟨CTy.int, CVal.num 3⟩]⟩ : Heap CTy CVal)
        = some ⟨CTy.int, CVal.num 3⟩ ∧
      CTy.int ∈ MyTs.map cdecay) ∧
    (((Variant.ctor_default MyTs).impl_ = none ∧
        (Variant.ctor_move (Variant.ctor_default MyTs)).2.impl_ = none ∧
        (Variant.assign_move (⟨[some ⟨CTy.int, CVal.num 3⟩]⟩ : Heap CTy CVal)
          (⟨some 0⟩ : Variant MyTs) (Variant.ctor_default MyTs)).2.2.impl_ = none) ∧
      ((Variant.ctor_default MyTs).visit1 cdecay Visit
          ⟨⟨[some ⟨CTy.int, CVal.num 3⟩]⟩, [], []⟩
          = .assertFail ⟨⟨[some ⟨CTy.int, CVal.num 3⟩]⟩, [], []⟩ ∧
        (Variant.ctor_default MyTs).visit2 cdecay Visit
          ⟨⟨[some ⟨CTy.int, CVal.num 3⟩]⟩, [], []⟩
          = .assertFail ⟨⟨[some ⟨CTy.int, CVal.num 3⟩]⟩, [], []⟩) ∧
      ((∃ w1, (⟨some 0⟩ : Variant MyTs).visit1 cdecay Visit
          ⟨⟨[some ⟨CTy.int, CVal.num 3⟩]⟩, [], []⟩ = .ok w1 ()) ∧
        (∃ w1 r, (⟨some 0⟩ : Variant MyTs).visit2 cdecay Visit
          ⟨⟨[some ⟨CTy.int, CVal.num 3⟩]⟩, [], []⟩ = .ok w1 r))) :=
  ⟨⟨by decide, by decide, by decide, by decide⟩,
    C8_visit_empty_asserts cdecay (Variant.ctor_default MyTs) (Variant.ctor_default MyTs)
      (⟨some 0⟩ : Variant MyTs) Visit ⟨⟨[some ⟨CTy.int, CVal.num 3⟩]⟩, [], []⟩
      ⟨CTy.int, CVal.num 3⟩ (by decide) (by decide) (by decide) (by decide)⟩

/-- C9 (counterexample): `Variant<int, int const>`, default-constructed, then `v = 3`.
The list is duplicate-free and 3 has the permitted type `int`, yet after the assignment
the linear scan invokes the visitor twice: `Visit` prints 3 twice, and the mutating
visitor `Bump` is invoked on 3 and then on 4. -/
theorem C9_counterexample_two_calls_after_assign :
    ([CTy.int, CTy.constInt] : List CTy).Nodup ∧
    CTy.int ∈ ([CTy.int, CTy.constInt] : List CTy) ∧
    Variant.assign_value cdecay ckind ⟨[]⟩ (Variant.ctor_default [CTy.int, CTy.constInt])
        CTy.int (CVal.num 3)
      = .ok ⟨[some ⟨CTy.int, CVal.num 3⟩]⟩ ⟨some 0⟩ ∧
    ((⟨some 0⟩ : Variant [CTy.int, CTy.constInt]).visit1 cdecay Visit
        ⟨⟨[some ⟨CTy.int, CVal.num 3⟩]⟩, [], []⟩).invocations
      = some [(CTy.int, CVal.num 3), (CTy.int, CVal.num 3)] ∧
    ((⟨some 0⟩ : Variant [CTy.int, CTy.constInt]).visit1 cdecay Bump
        ⟨⟨[some ⟨CTy.int, CVal.num 3⟩]⟩, (), []⟩).invocations
      = some [(CTy.int, CVal.num 3), (CTy.int, CVal.num 4)] := by
  decide

/-- C9 (amended): value assignment followed by visit.  For a permitted list whose entries
are pairwise distinct after decay, every valid variant (empty or holding any cell) and
every argument `x` of a copy-constructible value type whose decayed type is a permitted
one: the assignment `v = x` returns, and a visit after it, under either strategy, returns
after exactly one invocation, through the overload for the decayed type of `x` and on
`x`, so the visitor is not run on the value held before; the cell held before has been
destroyed and is no longer held. -/
theorem C9_assign_value_then_visit [DecidableEq Ty] (decay : Ty → Ty) (kind : Ty → ArgKind)
    {Ts : List Ty} (h : Heap Ty V) (self : Variant Ts) (T : Ty) (x : V)
    (f : Visitor Ty V S R) (s : S)
    (hnd : (Ts.map decay).Nodup) (hT : decay T ∈ Ts.map decay)
    (hk : kind T = ArgKind.value) (hv : self.valid h = true) :
    ∃ h1 v1, Variant.assign_value decay kind h self T x = .ok h1 v1 ∧
      (∃ w1, v1.visit1 decay f ⟨h1, s, []⟩ = .ok w1 () ∧
        calls w1.trace = [(decay T, x)] ∧ w1.st = (f (decay T) x s).st) ∧
      (∃ w1, v1.visit2 decay f ⟨h1, s, []⟩ = .ok w1 (f (decay T) x s).ret ∧
        calls w1.trace = [(decay T, x)] ∧ w1.st = (f (decay T) x s).st) ∧
      (∀ a, self.impl_ = some a → h1.get a = none ∧ v1.impl_ ≠ some a) := by
  obtain ⟨Ti, hTi, hdec⟩ := List.mem_map.mp hT
  have hcell : (⟨some h.cells.length⟩ : Variant Ts).cell
      ((h.make_unique ⟨decay T, x⟩).1.reset self.impl_) = some ⟨decay Ti, x⟩ := by
    rw [hdec]
    exact Variant.cell_fresh_reset h self _ hv
  obtain ⟨w1, a1, a2, a3, _⟩ := visit1_once decay (⟨some h.cells.length⟩ : Variant Ts) f
    ⟨(h.make_unique ⟨decay T, x⟩).1.reset self.impl_, s, []⟩ Ti x hnd hTi hcell
  obtain ⟨w2, b1, b2, b3, _⟩ := visit2_once decay (⟨some h.cells.length⟩ : Variant Ts) f
    ⟨(h.make_unique ⟨decay T, x⟩).1.reset self.impl_, s, []⟩ Ti x hTi hcell
  rw [hdec] at a2 a3 b1 b2 b3
  refine ⟨_, _, Variant.assign_value_value decay kind h self T x hk,
    ⟨w1, a1, a2, a3⟩, ⟨w2, b1, b2, b3⟩, ?_⟩
  intro a ha
  refine ⟨by simp [Heap.get_reset, ha], ?_⟩
  have := Variant.valid_lt hv ha
  simp only [ne_eq, Option.some.injEq]
  omega

/-- C9 (witness): the demonstration program.  On `Variant<int, char const*>` holding 3,
`v = "plop"` followed by a visit prints through the pointer overload only; and the whole
of `main` makes the two invocations `int` 3 and `char const*` "plop", in either build. -/
theorem C9_assign_value_then_visit_witness :
    ((MyTs.map cdecay).Nodup ∧ cdecay (CTy.charConstArr 5) ∈ MyTs.map cdecay ∧
      ckind (CTy.charConstArr 5) = ArgKind.value ∧
      (⟨some 0⟩ : Variant MyTs).valid (⟨[some ⟨CTy.int, CVal.num 3⟩]⟩ : Heap CTy CVal)
        = true) ∧
    (∃ h1 v1, Variant.assign_value cdecay ckind ⟨[some ⟨CTy.int, CVal.num 3⟩]⟩
        (⟨some 0⟩ : Variant MyTs) (CTy.charConstArr 5) (CVal.str "plop") = .ok h1 v1 ∧
      (∃ w1, v1.visit1 cdecay Visit ⟨h1, [("int: ", CVal.num 3)], []⟩ = .ok w1 () ∧
        calls w1.trace = [(CTy.charConstPtr, CVal.str "plop")] ∧
        w1.st = [("int: ", CVal.num 3), ("char*: ", CVal.str "plop")]) ∧
      (∃ w1, v1.visit2 cdecay Visit ⟨h1, [("int: ", CVal.num 3)], []⟩ = .ok w1 () ∧
        calls w1.trace = [(CTy.charConstPtr, CVal.str "plop")] ∧
        w1.st = [("int: ", CVal.num 3), ("char*: ", CVal.str "plop")]) ∧
      (∀ a, (⟨some 0⟩ : Variant MyTs).impl_ = some a →
        h1.get a = none ∧ v1.impl_ ≠ some a)) ∧
    Variant.assign_value cdecay ckind ⟨[some ⟨CTy.int, CVal.num 3⟩]⟩
        (⟨some 0⟩ : Variant MyTs) (CTy.charConstArr 5) (CVal.str "plop")
      = .ok ⟨[none, some ⟨CTy.charConstPtr, CVal.str "plop"⟩]⟩ ⟨some 1⟩ ∧
    (main (Variant.visit1 cdecay)).invocations
      = some [(CTy.int, CVal.num 3), (CTy.charConstPtr, CVal.str "plop")] ∧
    (main (Variant.visit2 cdecay)).invocations
      = some [(CTy.int, CVal.num 3), (CTy.charConstPtr, CVal.str "plop")] :=
  ⟨⟨by decide, by decide, by decide, by decide⟩,
    C9_assign_value_then_visit cdecay ckind ⟨[some ⟨CTy.int, CVal.num 3⟩]⟩
      (⟨some 0⟩ : Variant MyTs) (CTy.charConstArr 5) (CVal.str "plop") Visit
      [("int: ", CVal.num 3)] (by decide) (by decide) (by decide) (by decide),
    by decide, by decide, by decide⟩

/-- C11 (counterexample): the permitted list `<int const, int>` is non-empty and
duplicate-free and the cell of a variant constructed from the `int` 3 has the type `int`,
which is in the list; the linear scan invokes the visitor twice and the recursive
dispatch invokes it once. -/
theorem C11_counterexample_const_first :
    ([CTy.constInt, CTy.int] : List CTy) ≠ [] ∧
    ([CTy.constInt, CTy.int] : List CTy).Nodup ∧
    CTy.int ∈ ([CTy.constInt, CTy.int] : List CTy) ∧
    Variant.ctor_value cdecay ckind [CTy.constInt, CTy.int] ⟨[]⟩ CTy.int (CVal.num 3)
      = .ok ⟨[some ⟨CTy.int, CVal.num 3⟩]⟩ ⟨some 0⟩ ∧
    (⟨some 0⟩ : Variant [CTy.constInt, CTy.int]).cell
        (⟨[some ⟨CTy.int, CVal.num 3⟩]⟩ : Heap CTy CVal)
      = some ⟨CTy.int, CVal.num 3⟩ ∧
    ((⟨some 0⟩ : Variant [CTy.constInt, CTy.int]).visit1 cdecay Visit
        ⟨⟨[some ⟨CTy.int, CVal.num 3⟩]⟩, [], []⟩).invocations
      = some [(CTy.int, CVal.num 3), (CTy.int, CVal.num 3)] ∧
    ((⟨some 0⟩ : Variant [CTy.constInt, CTy.int]).visit2 cdecay Visit
        ⟨⟨[some ⟨CTy.int, CVal.num 3⟩]⟩, [], []⟩).invocations
      = some [(CTy.int, CVal.num 3)] := by
  decide

/-- C11 (amended): the two dispatch strategies agree.  For every permitted list whose
entries are pairwise distinct after decay, every variant holding a cell whose type is the
decayed type of an entry `Ti`, and every visitor, both strategies return and each makes
exactly one invocation, through the overload for `decay Ti` and on the stored value; they
leave the same visitor state and the same heap, so the same stored value. -/
theorem C11_strategies_agree [DecidableEq Ty] (decay : Ty → Ty) {Ts : List Ty}
    (self : Variant Ts) (f : Visitor Ty V S R) (w : World Ty V S) (Ti : Ty) (v : V)
    (hnd : (Ts.map decay).Nodup) (hTi : Ti ∈ Ts)
    (hcell : self.cell w.heap = some ⟨decay Ti, v⟩) :
    ∃ w1 w2, self.visit1 decay f w = .ok w1 () ∧
      self.visit2 decay f w = .ok w2 (f (decay Ti) v w.st).ret ∧
      calls w1.trace = calls w.trace ++ [(decay Ti, v)] ∧
      calls w2.trace = calls w.trace ++ [(decay Ti, v)] ∧
      w1.st = w2.st ∧ w1.heap = w2.heap := by
  obtain ⟨p, hp, hget⟩ := Variant.cell_eq_some hcell
  obtain ⟨pre, post, hsplit⟩ := List.append_of_mem hTi
  have hnd0 := hnd
  rw [hsplit, List.map_append, List.map_cons] at hnd0
  have hnd1 := List.nodup_append.mp hnd0
  have hpre : ∀ u ∈ pre, decay Ti ≠ decay u := by
    intro u hu he
    exact hnd1.2.2 (List.mem_map_of_mem decay hu) (he ▸ List.mem_cons_self _ _)
  have hpost : ∀ u ∈ post, decay Ti ≠ decay u := by
    intro u hu he
    exact (List.nodup_cons.mp hnd1.2.1).1 (he ▸ List.mem_map_of_mem decay hu)
  have hfold := visit1_fold_once decay f p ⟨decay Ti, v⟩ pre post Ti w hget rfl hpre hpost
  rw [← hsplit] at hfold
  have h1 := Variant.visit1_of_fold decay f self w _ p hp hfold
  have h2 := Variant.visit2_of_split decay f self w p ⟨decay Ti, v⟩ pre post Ti hp hget
    hsplit rfl hpre
  refine ⟨_, _, h1, h2, ?_, ?_, ?_, ?_⟩
  · simp [World.log, invoke, calls_append, calls_misses, calls]
  · simp [World.log, invoke, calls_append, calls_misses, calls_castEvents, calls]
  · simp [World.log, invoke]
  · simp [World.log, invoke]

/-- C11 (witness): `Variant<int, char const*>` holding 3, visited with `Visit` under
both strategies. -/
theorem C11_strategies_agree_witness :
    ((MyTs.map cdecay).Nodup ∧ CTy.int ∈ MyTs ∧
      (⟨some 0⟩ : Variant MyTs).cell (⟨[some ⟨CTy.int, CVal.num 3⟩]⟩ : Heap CTy CVal)
        = some ⟨CTy.int, CVal.num 3⟩) ∧
    ∃ w1 w2, (⟨some 0⟩ : Variant MyTs).visit1 cdecay Visit
        ⟨⟨[some ⟨CTy.int, CVal.num 3⟩]⟩, [], []⟩ = .ok w1 () ∧
      (⟨some 0⟩ : Variant MyTs).visit2 cdecay Visit
        ⟨⟨[some ⟨CTy.int, CVal.num 3⟩]⟩, [], []⟩ = .ok w2 () ∧
      calls w1.trace = [(CTy.int, CVal.num 3)] ∧
      calls w2.trace = [(CTy.int, CVal.num 3)] ∧
      w1.st = w2.st ∧ w1.heap = w2.heap :=
  ⟨⟨by decide, by decide, by decide⟩,
    C11_strategies_agree cdecay (⟨some 0⟩ : Variant MyTs) Visit
      ⟨⟨[some ⟨CTy.int, CVal.num 3⟩]⟩, [], []⟩ CTy.int (CVal.num 3)
      (by decide) (by decide) (by decide)⟩

/-- C12: the unchecked casts of the recursive dispatch are safe.  For every non-empty
permitted list and every variant whose cell has the (decayed) type of an entry, `visit`
returns, and the list splits at the first such entry `u`: every entry before `u` was
tested and failed; if `u` is the last entry (the base case, reached without a test) the
only cast is the unchecked one, to the type of the cell, which is then the type of the
last entry; if `u` is an earlier entry the unchecked cast directly follows the
successful checked cast to the same type.  In both cases the visitor receives the stored
value through the overload for the true type of the cell. -/
theorem C12_unchecked_casts_safe [DecidableEq Ty] (decay : Ty → Ty) {Ts : List Ty}
    (self : Variant Ts) (f : Visitor Ty V S R) (w : World Ty V S) (c : VariantImpl Ty V)
    (hcell : self.cell w.heap = some c) (hmem : c.T ∈ Ts.map decay) :
    ∃ pre u post w1, Ts = pre ++ u :: post ∧ (∀ x ∈ pre, c.T ≠ decay x) ∧ c.T = decay u ∧
      self.visit2 decay f w = .ok w1 (f c.T c.value_ w.st).ret ∧
      ((post = [] ∧ Ts.getLast? = some u ∧
          w1.trace = w.trace ++ misses decay pre ++ [.scast c.T, .call c.T c.value_]) ∨
        (post ≠ [] ∧
          w1.trace = w.trace ++ misses decay pre
            ++ [.dyncast c.T true, .scast c.T, .call c.T c.value_])) ∧
      (c.T ∈ Ts → decay c.T = c.T → post = [] → Ts.getLast? = some c.T) := by
  obtain ⟨p, hp, hget⟩ := Variant.cell_eq_some hcell
  obtain ⟨k, hk⟩ := List.mem_iff_getElem?.mp hmem
  have hex : ∃ k, (Ts.map decay)[k]? = some c.T := ⟨k, hk⟩
  classical
  have hk0 := Nat.find_spec hex
  have hmin : ∀ j, j < Nat.find hex → (Ts.map decay)[j]? ≠ some c.T :=
    fun j hj => Nat.find_min hex hj
  obtain ⟨pre, u, post, hsplit, _, hu, hpre⟩ :=
    split_at_first decay c.T Ts (Nat.find hex) hk0 hmin
  have hrun := Variant.visit2_of_split decay f self w p c pre post u hp hget hsplit hu hpre
  refine ⟨pre, u, post, _, hsplit, hpre, hu, hrun, ?_, ?_⟩
  · cases post with
    | nil =>
      left
      refine ⟨rfl, by simp [hsplit], ?_⟩
      simp [invoke, World.log, castEvents]
    | cons y ys =>
      right
      refine ⟨by simp, ?_⟩
      simp [invoke, World.log, castEvents]
  · intro hlit hdec hpost
    subst hpost
    rw [hsplit] at hlit
    rcases List.mem_append.mp hlit with hin | hin
    · exact absurd hdec.symm (hpre c.T hin)
    · have hcu : c.T = u := by simpa using hin
      simp [hsplit, hcu]

/-- C12 (witness): `Variant<int, char const*>` holding "plop"; the cell has the type of
the last entry, so the base case is reached after one failed test. -/
theorem C12_unchecked_casts_safe_witness :
    ((⟨some 0⟩ : Variant MyTs).cell
        (⟨[some ⟨CTy.charConstPtr, CVal.str "plop"⟩]⟩ : Heap CTy CVal)
        = some ⟨CTy.charConstPtr, CVal.str "plop"⟩ ∧
      CTy.charConstPtr ∈ MyTs.map cdecay) ∧
    (∃ pre u post w1, MyTs = pre ++ u :: post ∧
      (∀ x ∈ pre, CTy.charConstPtr ≠ cdecay x) ∧ CTy.charConstPtr = cdecay u ∧
      (⟨some 0⟩ : Variant MyTs).visit2 cdecay Visit
        ⟨⟨[some ⟨CTy.charConstPtr, CVal.str "plop"⟩]⟩, [], []⟩ = .ok w1 () ∧
      ((post = [] ∧ MyTs.getLast? = some u ∧
          w1.trace = [] ++ misses cdecay pre
            ++ [.scast CTy.charConstPtr, .call CTy.charConstPtr (CVal.str "plop")]) ∨
        (post ≠ [] ∧
          w1.trace = [] ++ misses cdecay pre
            ++ [.dyncast CTy.charConstPtr true, .scast CTy.charConstPtr,
              .call CTy.charConstPtr (CVal.str "plop")])) ∧
      (CTy.charConstPtr ∈ MyTs → cdecay CTy.charConstPtr = CTy.charConstPtr →
        post = [] → MyTs.getLast? = some CTy.charConstPtr)) ∧
    (⟨some 0⟩ : Variant MyTs).visit2 cdecay Visit
        ⟨⟨[some ⟨CTy.charConstPtr, CVal.str "plop"⟩]⟩, [], []⟩
      = .ok ⟨⟨[some ⟨CTy.charConstPtr, CVal.str "plop"⟩]⟩, [("char*: ", CVal.str "plop")],
          [.dyncast CTy.int false, .scast CTy.charConstPtr,
            .call CTy.charConstPtr (CVal.str "plop")]⟩ () :=
  ⟨⟨by decide, by decide⟩,
    C12_unchecked_casts_safe cdecay (⟨some 0⟩ : Variant MyTs) Visit
      ⟨⟨[some ⟨CTy.charConstPtr, CVal.str "plop"⟩]⟩, [], []⟩
      ⟨CTy.charConstPtr, CVal.str "plop"⟩ (by decide) (by decide),
    by decide⟩

/-- C13 (counterexample): `Variant<int const>` constructed from the `int` 3.  The type
`int` of the cell does not occur in the list `<int const>`, yet the linear scan invokes
the visitor once, because the entry `int const` is tested as `int`. -/
theorem C13_counterexample_const_only :
    Variant.ctor_value cdecay ckind [CTy.constInt] ⟨[]⟩ CTy.int (CVal.num 3)
      = .ok ⟨[some ⟨CTy.int, CVal.num 3⟩]⟩ ⟨some 0⟩ ∧
    (⟨some 0⟩ : Variant [CTy.constInt]).cell (⟨[some ⟨CTy.int, CVal.num 3⟩]⟩ : Heap CTy CVal)
      = some ⟨CTy.int, CVal.num 3⟩ ∧
    CTy.int ∉ ([CTy.constInt] : List CTy) ∧
    ([CTy.constInt] : List CTy).count CTy.int = 0 ∧
    ((⟨some 0⟩ : Variant [CTy.constInt]).visit1 cdecay Visit
        ⟨⟨[some ⟨CTy.int, CVal.num 3⟩]⟩, [], []⟩).invocations
      = some [(CTy.int, CVal.num 3)] := by
  decide

/-- C13 (amended): the linear scan never stops early.  For every permitted list, with or
without duplicates, and every variant holding a cell of type `T`, `visit` returns (a unit
result); it makes one type test per list position, in list order, successful exactly at
the positions whose decayed type is `T`; it invokes the visitor at exactly those
positions, each time through the overload for `T` and on the value the previous
invocation left; so the number of invocations is the number of entries whose decayed
type is `T`, zero when there is none. -/
theorem C13_visit1_scans_whole_list [DecidableEq Ty] (decay : Ty → Ty) {Ts : List Ty}
    (self : Variant Ts) (f : Visitor Ty V S R) (w : World Ty V S) (c : VariantImpl Ty V)
    (hcell : self.cell w.heap = some c) :
    ∃ w1 es, self.visit1 decay f w = .ok w1 () ∧ w1.trace = w.trace ++ es ∧
      tests es = Ts.map (fun t => (decay t, decide (c.T = decay t))) ∧
      (tests es).length = Ts.length ∧
      es.map Event.shape = scanShape decay c.T Ts ∧
      calls es = (repeatCall f c.T ((Ts.map decay).count c.T) c.value_ w.st).1 ∧
      (calls es).length = (Ts.map decay).count c.T ∧
      (c.T ∉ Ts.map decay → calls es = []) := by
  obtain ⟨p, hp, hget⟩ := Variant.cell_eq_some hcell
  obtain ⟨w1, es, hrun, htr, hte, hsh, hca, _, _, _⟩ :=
    visit1_fold_scan decay f p c.T Ts w c.value_ hget
  refine ⟨w1, es, Variant.visit1_of_fold decay f self w w1 p hp hrun, htr, hte, ?_, hsh,
    hca, ?_, ?_⟩
  · rw [hte, List.length_map]
  · rw [hca, repeatCall_length]
  · intro hnot
    rw [hca, List.count_eq_zero.mpr hnot]
    rfl

/-- C13 (witness): `Variant<int, char const*>` holding "plop": two tests, the second
successful, and one invocation after it. -/
theorem C13_visit1_scans_whole_list_witness :
    (⟨some 0⟩ : Variant MyTs).cell
        (⟨[some ⟨CTy.charConstPtr, CVal.str "plop"⟩]⟩ : Heap CTy CVal)
      = some ⟨CTy.charConstPtr, CVal.str "plop"⟩ ∧
    (∃ w1 es, (⟨some 0⟩ : Variant MyTs).visit1 cdecay Visit
        ⟨⟨[some ⟨CTy.charConstPtr, CVal.str "plop"⟩]⟩, [], []⟩ = .ok w1 () ∧
      w1.trace = [] ++ es ∧
      tests es = [(CTy.int, false), (CTy.charConstPtr, true)] ∧
      (tests es).length = 2 ∧
      es.map Event.shape
        = [.dyncast CTy.int false, .dyncast CTy.charConstPtr true, .call CTy.charConstPtr ()] ∧
      calls es = [(CTy.charConstPtr, CVal.str "plop")] ∧
      (calls es).length = 1 ∧
      (CTy.charConstPtr ∉ MyTs.map cdecay → calls es = [])) ∧
    (⟨some 0⟩ : Variant MyTs).visit1 cdecay Visit
        ⟨⟨[some ⟨CTy.charConstPtr, CVal.str "plop"⟩]⟩, [], []⟩
      = .ok ⟨⟨[some ⟨CTy.charConstPtr, CVal.str "plop"⟩]⟩, [("char*: ", CVal.str "plop")],
          [.dyncast CTy.int false, .dyncast CTy.charConstPtr true,
            .call CTy.charConstPtr (CVal.str "plop")]⟩ () :=
  ⟨by decide,
    C13_visit1_scans_whole_list cdecay (⟨some 0⟩ : Variant MyTs) Visit
      ⟨⟨[some ⟨CTy.charConstPtr, CVal.str "plop"⟩]⟩, [], []⟩
      ⟨CTy.charConstPtr, CVal.str "plop"⟩ (by decide),
    by decide⟩

/-- C14 (counterexample): `Variant<int const, int, long>` constructed from the `int` 3.
The type `int` of the cell first occurs in the list at position 1, for which the claim
gives min(1+1, 3-1) = 2 type tests; the recursive dispatch makes a single test, at
position 0, because the entry `int const` is tested as `int` and matches. -/
theorem C14_counterexample_const_before :
    Variant.ctor_value cdecay ckind [CTy.constInt, CTy.int, CTy.long] ⟨[]⟩ CTy.int
        (CVal.num 3)
      = .ok ⟨[some ⟨CTy.int, CVal.num 3⟩]⟩ ⟨some 0⟩ ∧
    (⟨some 0⟩ : Variant [CTy.constInt, CTy.int, CTy.long]).cell
        (⟨[some ⟨CTy.int, CVal.num 3⟩]⟩ : Heap CTy CVal)
      = some ⟨CTy.int, CVal.num 3⟩ ∧
    ([CTy.constInt, CTy.int, CTy.long] : List CTy)[1]? = some CTy.int ∧
    ([CTy.constInt, CTy.int, CTy.long] : List CTy)[0]? ≠ some CTy.int ∧
    min (1 + 1) (([CTy.constInt, CTy.int, CTy.long] : List CTy).length - 1) = 2 ∧
    ((⟨some 0⟩ : Variant [CTy.constInt, CTy.int, CTy.long]).visit2 cdecay Visit
        ⟨⟨[some ⟨CTy.int, CVal.num 3⟩]⟩, [], []⟩).typeTests
      = some [(CTy.int, true)] := by
  decide

/-- C14 (amended): the recursive dispatch tests in list order and stops at the first
match.  For every permitted list of length `n` and every variant whose cell type first
occurs among the decayed entries at position `k`, `visit` returns the result of the
visitor; the type tests it made are those of the first min(k+1, n-1) positions, in list
order, failed before `k` and successful at `k` (the last position is never tested); it
tests no position after `k` and invokes the visitor once, on the stored value. -/
theorem C14_visit2_stops_at_first_match [DecidableEq Ty] (decay : Ty → Ty) {Ts : List Ty}
    (self : Variant Ts) (f : Visitor Ty V S R) (w : World Ty V S) (c : VariantImpl Ty V)
    (k : Nat) (hcell : self.cell w.heap = some c)
    (hk : (Ts.map decay)[k]? = some c.T)
    (hfirst : ∀ j, j < k → (Ts.map decay)[j]? ≠ some c.T) :
    ∃ w1 es, self.visit2 decay f w = .ok w1 (f c.T c.value_ w.st).ret ∧
      w1.trace = w.trace ++ es ∧
      tests es = ((Ts.map decay).take (min (k + 1) (Ts.length - 1))).map
        (fun t => (t, decide (c.T = t))) ∧
      (tests es).length = min (k + 1) (Ts.length - 1) ∧
      calls es = [(c.T, c.value_)] := by
  obtain ⟨p, hp, hget⟩ := Variant.cell_eq_some hcell
  obtain ⟨pre, u, post, hsplit, hlen, hu, hpre⟩ := split_at_first decay c.T Ts k hk hfirst
  have hrun := Variant.visit2_of_split decay f self w p c pre post u hp hget hsplit hu hpre
  have htests : tests (misses decay pre ++ castEvents c.T post ++ [Event.call c.T c.value_])
      = ((Ts.map decay).take (min (k + 1) (Ts.length - 1))).map
          (fun t => (t, decide (c.T = t))) := by
    rw [hsplit, ← hlen, tests_first_match decay c.T pre post u hu hpre]
    simp [tests_append, tests_misses, tests_castEvents, tests]
  refine ⟨_, misses decay pre ++ castEvents c.T post ++ [Event.call c.T c.value_], hrun,
    ?_, htests, ?_, ?_⟩
  · simp [invoke, World.log]
  · rw [htests, List.length_map, List.length_take, List.length_map]
    have : k < Ts.length := by
      rw [hsplit, ← hlen]
      simp
    omega
  · simp [calls_append, calls_misses, calls_castEvents, calls]

/-- C14 (witness): `Variant<int, char const*, long>` holding "plop": the cell type first
occurs at position 1 of 3, so two tests are made and `long` is not tested. -/
theorem C14_visit2_stops_at_first_match_witness :
    ((⟨some 0⟩ : Variant [CTy.int, CTy.charConstPtr, CTy.long]).cell
        (⟨[some ⟨CTy.charConstPtr, CVal.str "plop"⟩]⟩ : Heap CTy CVal)
        = some ⟨CTy.charConstPtr, CVal.str "plop"⟩ ∧
      ([CTy.int, CTy.charConstPtr, CTy.long].map cdecay)[1]? = some CTy.charConstPtr ∧
      ∀ j, j < 1 → ([CTy.int, CTy.charConstPtr, CTy.long].map cdecay)[j]?
        ≠ some CTy.charConstPtr) ∧
    ∃ w1 es, (⟨some 0⟩ : Variant [CTy.int, CTy.charConstPtr, CTy.long]).visit2 cdecay Visit
        ⟨⟨[some ⟨CTy.charConstPtr, CVal.str "plop"⟩]⟩, [], []⟩ = .ok w1 () ∧
      w1.trace = [] ++ es ∧
      tests es = [(CTy.int, false), (CTy.charConstPtr, true)] ∧
      (tests es).length = 2 ∧
      calls es = [(CTy.charConstPtr, CVal.str "plop")] :=
  ⟨⟨by decide, by decide, by decide⟩,
    C14_visit2_stops_at_first_match cdecay
      (⟨some 0⟩ : Variant [CTy.int, CTy.charConstPtr, CTy.long]) Visit
      ⟨⟨[some ⟨CTy.charConstPtr, CVal.str "plop"⟩]⟩, [], []⟩
      ⟨CTy.charConstPtr, CVal.str "plop"⟩ 1 (by decide) (by decide) (by decide)⟩

/-- C15: duplicate-freedom is necessary for the strategies to agree.  Whenever the type
of the held cell is the decayed type of exactly two entries of the permitted list, the
linear scan invokes the visitor twice, first on the stored value and then on the value
that invocation left, while the recursive dispatch invokes it exactly once, on the
stored value; the two sequences of invocations differ. -/
theorem C15_duplicate_types_disagree [DecidableEq Ty] (decay : Ty → Ty) {Ts : List Ty}
    (self : Variant Ts) (f : Visitor Ty V S R) (w : World Ty V S) (c : VariantImpl Ty V)
    (hcell : self.cell w.heap = some c) (hcount : (Ts.map decay).count c.T = 2) :
    ∃ w1 w2, self.visit1 decay f w = .ok w1 () ∧
      self.visit2 decay f w = .ok w2 (f c.T c.value_ w.st).ret ∧
      calls w1.trace
        = calls w.trace ++ [(c.T, c.value_), (c.T, (f c.T c.value_ w.st).value)] ∧
      calls w2.trace = calls w.trace ++ [(c.T, c.value_)] ∧
      calls w1.trace ≠ calls w2.trace := by
  obtain ⟨p, hp, hget⟩ := Variant.cell_eq_some hcell
  obtain ⟨w1, es, hrun, htr, _, _, hca, _, _, _⟩ :=
    visit1_fold_scan decay f p c.T Ts w c.value_ hget
  have hmem : c.T ∈ Ts.map decay := List.count_pos_iff.mp (by omega)
  obtain ⟨Ti, hTi, hdec⟩ := List.mem_map.mp hmem
  have hcell1 : self.cell w.heap = some ⟨decay Ti, c.value_⟩ := by
    rw [hcell, hdec]
  obtain ⟨w2, k1, k2, _⟩ := visit2_once decay self f w Ti c.value_ hTi hcell1
  rw [hdec] at k1 k2
  have hc1 : calls w1.trace
      = calls w.trace ++ [(c.T, c.value_), (c.T, (f c.T c.value_ w.st).value)] := by
    rw [htr, calls_append, hca, hcount]
    rfl
  refine ⟨w1, w2, Variant.visit1_of_fold decay f self w w1 p hp hrun, k1, hc1, k2, ?_⟩
  rw [hc1, k2]
  intro he
  have := congrArg List.length he
  simp at this

/-- C15 (witness): `Variant<int, int>` holding 3, visited with `Visit`: two invocations
on 3 under the linear scan, one under the recursive dispatch. -/
theorem C15_duplicate_types_disagree_witness :
    ((⟨some 0⟩ : Variant [CTy.int, CTy.int]).cell
        (⟨[some ⟨CTy.int, CVal.num 3⟩]⟩ : Heap CTy CVal) = some ⟨CTy.int, CVal.num 3⟩ ∧
      ([CTy.int, CTy.int].map cdecay).count CTy.int = 2 ∧
      ¬ ([CTy.int, CTy.int] : List CTy).Nodup) ∧
    ∃ w1 w2, (⟨some 0⟩ : Variant [CTy.int, CTy.int]).visit1 cdecay Visit
        ⟨⟨[some ⟨CTy.int, CVal.num 3⟩]⟩, [], []⟩ = .ok w1 () ∧
      (⟨some 0⟩ : Variant [CTy.int, CTy.int]).visit2 cdecay Visit
        ⟨⟨[some ⟨CTy.int, CVal.num 3⟩]⟩, [], []⟩ = .ok w2 () ∧
      calls w1.trace = [(CTy.int, CVal.num 3), (CTy.int, CVal.num 3)] ∧
      calls w2.trace = [(CTy.int, CVal.num 3)] ∧
      calls w1.trace ≠ calls w2.trace :=
  ⟨⟨by decide, by decide, by decide⟩,
    C15_duplicate_types_disagree cdecay (⟨some 0⟩ : Variant [CTy.int, CTy.int]) Visit
      ⟨⟨[some ⟨CTy.int, CVal.num 3⟩]⟩, [], []⟩ ⟨CTy.int, CVal.num 3⟩
      (by decide) (by decide)⟩

/-- C16 (counterexample): two arguments from which no cell is made.  A
`std::unique_ptr<int>` is not copy-constructible, so constructing or assigning a
`Variant<int, char const*>` from it does not compile; a non-const lvalue of the variant
itself is taken by the constructor `Variant(T&&)`, whose cell constructor calls it
again, so the construction and the assignment do not return. -/
theorem C16_counterexample_no_cell_made :
    Variant.ctor_value cdecay ckind MyTs ⟨[]⟩ CTy.uniquePtrInt (CVal.owned 3)
      = Outcome.illFormed ∧
    Variant.assign_value cdecay ckind ⟨[]⟩ (Variant.ctor_default MyTs) CTy.uniquePtrInt
        (CVal.owned 3)
      = Outcome.illFormed ∧
    Variant.ctor_value cdecay ckind MyTs ⟨[some ⟨CTy.int, CVal.num 3⟩]⟩ CTy.variantLvalue
        (CVal.var (some 0))
      = Outcome.diverges ∧
    Variant.assign_value cdecay ckind ⟨[some ⟨CTy.int, CVal.num 3⟩]⟩
        (Variant.ctor_default MyTs) CTy.variantLvalue (CVal.var (some 0))
      = Outcome.diverges := by
  decide

/-- C16 (amended): erasure stores the decayed argument type.  For an argument `x` whose
static type `T` is a copy-constructible value type, the value constructor and the value
assignment (into any valid variant) each return a variant holding a cell of type exactly
`decay T` with value `x`.  Assigning `x` yields the same variant as constructing from
`x`, in a heap that differs only by the destroyed cell the variant held before.  For an
argument type that is not copy-constructible neither compiles. -/
theorem C16_erasure_stores_decayed_type (decay : Ty → Ty) (kind : Ty → ArgKind)
    (Ts : List Ty) (h : Heap Ty V) (self : Variant Ts) (T : Ty) (x : V)
    (hk : kind T = ArgKind.value) (hv : self.valid h = true) :
    (∃ h1 v1 h2 v2, Variant.ctor_value decay kind Ts h T x = .ok h1 v1 ∧
      Variant.assign_value decay kind h self T x = .ok h2 v2 ∧
      v1.cell h1 = some ⟨decay T, x⟩ ∧
      v2.cell h2 = some ⟨decay T, x⟩ ∧
      v2 = v1 ∧
      (∀ b, self.impl_ ≠ some b → h2.get b = h1.get b) ∧
      (∀ a, self.impl_ = some a → h2.get a = none)) ∧
    (∀ (U : Ty) (y : V), kind U = ArgKind.notCopyable →
      Variant.ctor_value decay kind Ts h U y = Outcome.illFormed ∧
      Variant.assign_value decay kind h self U y = Outcome.illFormed) := by
  refine ⟨⟨_, _, _, _, Variant.ctor_value_value decay kind Ts h T x hk,
    Variant.assign_value_value decay kind h self T x hk, Variant.cell_fresh Ts h _,
    Variant.cell_fresh_reset h self _ hv, rfl, ?_, ?_⟩, ?_⟩
  · intro b hb
    simp only [Heap.get_reset, if_neg hb]
  · intro a ha
    simp [Heap.get_reset, ha]
  · intro U y hU
    simp [Variant.ctor_value, Variant.assign_value, make_variant_impl, hU, Outcome.bind]

/-- C16 (witness): the string literal "plop", of type `char const[5]`, constructed into
and assigned to a `Variant<int, char const*>` holding 3 gives a `char const*` cell; an
`int const` gives an `int` cell. -/
theorem C16_erasure_stores_decayed_type_witness :
    (ckind (CTy.charConstArr 5) = ArgKind.value ∧
      (⟨some 0⟩ : Variant MyTs).valid (⟨[some ⟨CTy.int, CVal.num 3⟩]⟩ : Heap CTy CVal)
        = true) ∧
    ((∃ h1 v1 h2 v2, Variant.ctor_value cdecay ckind MyTs ⟨[some ⟨CTy.int, CVal.num 3⟩]⟩
          (CTy.charConstArr 5) (CVal.str "plop") = .ok h1 v1 ∧
        Variant.assign_value cdecay ckind ⟨[some ⟨CTy.int, CVal.num 3⟩]⟩
          (⟨some 0⟩ : Variant MyTs) (CTy.charConstArr 5) (CVal.str "plop") = .ok h2 v2 ∧
        v1.cell h1 = some ⟨CTy.charConstPtr, CVal.str "plop"⟩ ∧
        v2.cell h2 = some ⟨CTy.charConstPtr, CVal.str "plop"⟩ ∧
        v2 = v1 ∧
        (∀ b, (⟨some 0⟩ : Variant MyTs).impl_ ≠ some b → h2.get b = h1.get b) ∧
        (∀ a, (⟨some 0⟩ : Variant MyTs).impl_ = some a → h2.get a = none)) ∧
      (∀ (U : CTy) (y : CVal), ckind U = ArgKind.notCopyable →
        Variant.ctor_value cdecay ckind MyTs ⟨[some ⟨CTy.int, CVal.num 3⟩]⟩ U y
          = Outcome.illFormed ∧
        Variant.assign_value cdecay ckind ⟨[some ⟨CTy.int, CVal.num 3⟩]⟩
          (⟨some 0⟩ : Variant MyTs) U y = Outcome.illFormed)) ∧
    Variant.ctor_value cdecay ckind MyTs ⟨[some ⟨CTy.int, CVal.num 3⟩]⟩
        (CTy.charConstArr 5) (CVal.str "plop")
      = .ok ⟨[some ⟨CTy.int, CVal.num 3⟩, some ⟨CTy.charConstPtr, CVal.str "plop"⟩]⟩
          ⟨some 1⟩ ∧
    Variant.assign_value cdecay ckind ⟨[some ⟨CTy.int, CVal.num 3⟩]⟩
        (⟨some 0⟩ : Variant MyTs) (CTy.charConstArr 5) (CVal.str "plop")
      = .ok ⟨[none, some ⟨CTy.charConstPtr, CVal.str "plop"⟩]⟩ ⟨some 1⟩ ∧
    Variant.ctor_value cdecay ckind MyTs (⟨[]⟩ : Heap CTy CVal) CTy.constInt (CVal.num 3)
      = .ok ⟨[some ⟨CTy.int, CVal.num 3⟩]⟩ ⟨some 0⟩ :=
  ⟨⟨by decide, by decide⟩,
    C16_erasure_stores_decayed_type cdecay ckind MyTs ⟨[some ⟨CTy.int, CVal.num 3⟩]⟩
      (⟨some 0⟩ : Variant MyTs) (CTy.charConstArr 5) (CVal.str "plop")
      (by decide) (by decide),
    by decide, by decide, by decide⟩

end Claims

end CppVariant
